import Mathlib

/-!
Shallow embedding of the core of the flib repository (src/main.rs, src/symbols.rs):
word reading, rough/precise stencil construction, the two-phase pattern matcher,
MIPS relocation-inverting symbol recovery, the per-object driver loop and the
final symbol emission stage.

Machine integers are modelled as Nat with explicit reduction modulo 2^32 (u32)
or 2^64 (usize) wherever the Rust code can wrap.  Rust panics
(indexing out of bounds, unimplemented!, failed asserts) are modelled as None.
Rust Vec::sort_by_key is a stable sort; it is modelled by insertion sort, which
computes the same (unique) stably-sorted permutation.
-/

namespace Flib

/-! ### Constants from src/main.rs lines 18-21 and src/symbols.rs line 23 -/

def FULL_MASK : Nat := 0xFFFFFFFF
def ROUGH_MASK : Nat := 0xFC000000
def J_TYPE_MASK : Nat := 0xFC000000
def I_TYPE_MASK : Nat := 0xFFFF0000
def HIGH_BITS : Nat := 0x80000000

def U32_MOD : Nat := 2 ^ 32
def USIZE_MOD : Nat := 2 ^ 64

/-- Bitwise complement on 32-bit words (Rust !m on a u32). -/
def compl32 (m : Nat) : Nat := 0xFFFFFFFF ^^^ m

/-- Wrapping u32 addition. -/
def u32add (a b : Nat) : Nat := (a + b) % U32_MOD

/-- Wrapping u32 subtraction. -/
def u32sub (a b : Nat) : Nat := (a + (U32_MOD - b % U32_MOD)) % U32_MOD

/-- Wrapping u32 left shift. -/
def u32shl (a n : Nat) : Nat := (a <<< n) % U32_MOD

/-- Wrapping u32 multiplication. -/
def u32mul (a b : Nat) : Nat := (a * b) % U32_MOD

/-- Rust (i as u32) truncating cast of an i64. -/
def intToU32 (i : Int) : Nat := (i % (2 ^ 32 : Int)).toNat

/-- Wrapping usize subtraction (Rust a - b on usize in release mode). -/
def usizeSub (a b : Nat) : Nat := (a + (USIZE_MOD - b % USIZE_MOD)) % USIZE_MOD

/-! ### Word reader (src/main.rs lines 23-26, 94-102) -/

inductive Endian
  | little
  | big
deriving DecidableEq

/-- u32::from_be_bytes / from_le_bytes on one 4-byte chunk. -/
def wordFrom (e : Endian) : Nat × Nat × Nat × Nat → Nat
  | (b0, b1, b2, b3) =>
    match e with
    | .big => (b0 <<< 24) ||| (b1 <<< 16) ||| (b2 <<< 8) ||| b3
    | .little => (b3 <<< 24) ||| (b2 <<< 16) ||| (b1 <<< 8) ||| b0

/-- slice::chunks_exact(4): full 4-byte chunks, a trailing partial chunk is dropped. -/
def chunks4 : List Nat → List (Nat × Nat × Nat × Nat)
  | b0 :: b1 :: b2 :: b3 :: rest => (b0, b1, b2, b3) :: chunks4 rest
  | _ => []

/-- words_from_bytes (src/main.rs lines 94-102): read a byte slice as 32-bit words,
silently truncating a trailing partial word. -/
def words_from_bytes (e : Endian) (input : List Nat) : List Nat :=
  (chunks4 input).map (wordFrom e)

/-! ### Stencils (src/main.rs lines 104-159) -/

/-- make_rough_stencil (src/main.rs lines 104-109). -/
def make_rough_stencil (e : Endian) (input : List Nat) : List Nat :=
  (words_from_bytes e input).map (fun w => w &&& ROUGH_MASK)

structure PreciseStencil where
  word : Nat
  addend : Nat
  mask : Nat
deriving DecidableEq

/-- Initial identity entry for one .text word (src/main.rs lines 129-136). -/
def initStencil (w : Nat) : PreciseStencil :=
  { word := w, addend := w, mask := FULL_MASK }

/-- Relocation kinds the stencil builder distinguishes; other stands for any
kind outside R_MIPS_26 / R_MIPS_HI16 / R_MIPS_LO16. -/
inductive RelocKind
  | mips26
  | hi16
  | lo16
  | other
deriving DecidableEq

/-- One .text relocation as seen through the object adapter: byte offset, kind,
resolved target data (name, size, is-definition) and the explicit ELF addend. -/
structure Reloc where
  offset : Nat
  kind : RelocKind
  name : String
  size : Nat
  defined : Bool
  addend : Int
deriving DecidableEq

/-- The per-kind mask update applied to a stencil entry
(src/main.rs lines 142-153). -/
def applyKindUpd (k : RelocKind) (e : PreciseStencil) : PreciseStencil :=
  match k with
  | .mips26 =>
    { word := e.word &&& J_TYPE_MASK
      addend := e.addend &&& compl32 J_TYPE_MASK
      mask := e.mask &&& J_TYPE_MASK }
  | .hi16 | .lo16 =>
    { word := e.word &&& I_TYPE_MASK
      addend := e.addend &&& compl32 I_TYPE_MASK
      mask := e.mask &&& I_TYPE_MASK }
  | .other => e

/-- One iteration of the relocation loop in make_precise_stencil
(src/main.rs lines 139-156).  An unsupported kind is unimplemented! and an
out-of-range index panics; both are modelled as none. -/
def applyReloc (output : List PreciseStencil) (r : Reloc) : Option (List PreciseStencil) :=
  let index := r.offset / 4
  match r.kind with
  | RelocKind.other => none
  | k =>
    match output[index]? with
    | none => none
    | some e => some (output.set index (applyKindUpd k e))

/-- make_precise_stencil (src/main.rs lines 118-159). -/
def make_precise_stencil (e : Endian) (input : List Nat) (relocs : List Reloc) :
    Option (List PreciseStencil) :=
  relocs.foldlM applyReloc ((chunks4 input).map (fun b => initStencil (wordFrom e b)))

/-! ### Two-phase matcher (src/main.rs lines 161-197) -/

/-- The inner for-loop of naive_wordsearch at window start i, scanning the
pattern from position j: some true for a full masked match, some false at the
first mismatch (the break), none when v[i+j] is out of bounds (Rust panic). -/
def checkWindow (v : List Nat) (i : Nat) : List Nat → Nat → Option Bool
  | [], _ => some true
  | w :: rest, j =>
    match v[i + j]? with
    | none => none
    | some x => if x &&& ROUGH_MASK ≠ w then some false else checkWindow v i rest (j + 1)

/-- The while loop of naive_wordsearch. fuel is chosen as bound + 1 - i at the
top-level call so that the recursion mirrors while i <= bound exactly. -/
def wsGo (v pattern : List Nat) (bound : Nat) : Nat → Nat → Option (List Nat)
  | 0, _ => some []
  | fuel + 1, i =>
    if i ≤ bound then
      match checkWindow v i pattern 0 with
      | none => none
      | some true => Option.map (fun rs => i * 4 :: rs) (wsGo v pattern bound fuel (i + 1))
      | some false => wsGo v pattern bound fuel (i + 1)
    else some []

/-- naive_wordsearch (src/main.rs lines 161-180).  The loop bound
v.len() - pattern.len() is the wrapping usize subtraction. -/
def naive_wordsearch (v pattern : List Nat) : Option (List Nat) :=
  let bound := usizeSub v.length pattern.length
  wsGo v pattern bound (bound + 1) 0

/-- precise_check (src/main.rs lines 182-197): asserts equal lengths (none on
violation), then checks the masked equality word by word. -/
def precise_check (v : List Nat) (stencil : List PreciseStencil) : Option Bool :=
  if v.length = stencil.length then
    some ((v.zip stencil).all (fun p => p.1 &&& p.2.mask == p.2.word))
  else none

/-- The precise phase of the per-object search in run (src/main.rs lines
288-321), restricted to collecting match offsets: for each rough hit r, slice
the blob window at r / 4 and keep r + start when the precise check passes. -/
def searchTextStep (romWords : List Nat) (stencil : List PreciseStencil) (start : Nat)
    (acc : List Nat) (r : Nat) : Option (List Nat) :=
  let index := r / 4
  match precise_check ((romWords.drop index).take stencil.length) stencil with
  | none => none
  | some true => some (acc ++ [r + start])
  | some false => some acc

/-- The two-phase match pipeline of run for one object's .text bytes
(src/main.rs lines 277-294): rough stencil, rough scan, precise stencil,
precise re-check of each rough hit. -/
def searchText (romWords : List Nat) (e : Endian) (textBytes : List Nat)
    (relocs : List Reloc) (start : Nat) : Option (List Nat) :=
  let rough := make_rough_stencil e textBytes
  match naive_wordsearch romWords rough with
  | none => none
  | some roughRes =>
    if roughRes = [] then some []
    else
      match make_precise_stencil e textBytes relocs with
      | none => none
      | some stencil => roughRes.foldlM (searchTextStep romWords stencil start) []

/-! ### Symbol recovery (src/symbols.rs) -/

structure Symbol where
  name : String
  address : Nat
  size : Nat
  filename : String
  defined : Bool
  complete : Bool
deriving DecidableEq

/-- One iteration of the relocation loop of parse_relocated
(src/symbols.rs lines 43-117).  Unsupported kinds are unimplemented! and
out-of-bounds accesses panic; both are modelled as none.  Accesses are made in
the order of the source: for J26 the stencil entry is only read when the word
is not an unconditional j; for LO16 the stencil entry is only read when an
incomplete symbol is pending. -/
def parseRelocStep (stencil : List PreciseStencil) (romWords : List Nat) (filename : String)
    (symbols : List Symbol) (r : Reloc) : Option (List Symbol) :=
  let index := r.offset / 4
  match r.kind with
  | RelocKind.mips26 =>
    match romWords[index]? with
    | none => none
    | some w =>
      if w &&& J_TYPE_MASK ≠ 2 <<< 26 then
        match stencil[index]? with
        | none => none
        | some st =>
          let address := u32sub (u32add HIGH_BITS (u32shl (w &&& compl32 J_TYPE_MASK) 2)) st.addend
          some (symbols ++ [{ name := r.name, address := address, size := r.size,
                              filename := filename, defined := r.defined, complete := true }])
      else some symbols
  | RelocKind.hi16 =>
    match romWords[index]?, stencil[index]? with
    | some w, some st =>
      let address := u32sub (u32shl (w &&& compl32 I_TYPE_MASK) 16) (u32shl st.addend 16)
      some (symbols ++ [{ name := r.name, address := address, size := r.size,
                          filename := filename, defined := r.defined, complete := false }])
    | _, _ => none
  | RelocKind.lo16 =>
    match romWords[index]? with
    | none => none
    | some w =>
      let address := w &&& compl32 I_TYPE_MASK
      match symbols.getLast? with
      | none => some symbols
      | some last =>
        if last.complete then some symbols
        else
          match stencil[index]? with
          | none => none
          | some st =>
            let a1 := u32add last.address address
            let a2 := u32sub a1 (u32shl (address &&& 0x8000) 1)
            let a3 := u32sub a2 (intToU32 r.addend)
            let a4 := u32sub a3 st.addend
            some (symbols.dropLast ++
              [{ last with address := a4, complete := true }])
  | RelocKind.other => none

/-- parse_relocated (src/symbols.rs lines 33-120): asserts equal stencil and
rom-slice lengths, then folds the relocation loop. -/
def parse_relocated (relocs : List Reloc) (stencil : List PreciseStencil)
    (romWords : List Nat) (filename : String) : Option (List Symbol) :=
  if stencil.length = romWords.length then
    relocs.foldlM (parseRelocStep stencil romWords filename) []
  else none

/-- One entry of the object's symbol table as seen through the object adapter. -/
structure SymEntry where
  name : String
  isText : Bool
  isDef : Bool
  address : Nat
  size : Nat
deriving DecidableEq

/-- parse_symtab_functions (src/symbols.rs lines 122-152). -/
def parse_symtab_functions (symtab : List SymEntry) (filename : String)
    (base : Nat) (index : Nat) : List Symbol :=
  (symtab.filter (fun s => s.isText && s.isDef)).map
    (fun s =>
      { name := s.name
        address := u32add (u32add base (u32mul (index % U32_MOD) 4)) (s.address % U32_MOD)
        size := s.size % U32_MOD
        filename := filename
        defined := s.isDef
        complete := true })

/-! ### Sorting and consecutive dedup (Rust Vec::sort_by_key / Vec::dedup_by_key) -/

def symAddrLe (a b : Symbol) : Prop := a.address ≤ b.address

instance : DecidableRel symAddrLe := fun a b => Nat.decLe a.address b.address

instance : IsTotal Symbol symAddrLe := ⟨fun a b => Nat.le_total a.address b.address⟩

instance : IsTrans Symbol symAddrLe := ⟨fun _ _ _ h1 h2 => Nat.le_trans h1 h2⟩

/-- The comparison of sort_by_key with key -(size as isize): size descending. -/
def symSizeGe (a b : Symbol) : Prop := b.size ≤ a.size

instance : DecidableRel symSizeGe := fun a b => Nat.decLe b.size a.size

instance : IsTotal Symbol symSizeGe := ⟨fun a b => Nat.le_total b.size a.size⟩

instance : IsTrans Symbol symSizeGe := ⟨fun _ _ _ h1 h2 => Nat.le_trans h2 h1⟩

/-- Tail worker of dedupByKey: prev is the last retained element. -/
def dedupKeyGo {α κ : Type} [DecidableEq κ] (key : α → κ) (prev : α) : List α → List α
  | [] => []
  | b :: rest => if key prev = key b then dedupKeyGo key prev rest else b :: dedupKeyGo key b rest

/-- Vec::dedup_by_key: removes all but the first of consecutive elements with
equal keys. -/
def dedupByKey {α κ : Type} [DecidableEq κ] (key : α → κ) : List α → List α
  | [] => []
  | a :: rest => a :: dedupKeyGo key a rest

/-- The final symbol output stage of run (src/main.rs lines 384-386):
stable sort by -(size), stable sort by address, dedup by (name, address). -/
def emitSymbols (l : List Symbol) : List Symbol :=
  dedupByKey (fun s => (s.name, s.address))
    (List.insertionSort symAddrLe (List.insertionSort symSizeGe l))

/-- Ordering claimed for the emitted symbol list: address ascending, and size
descending among equal addresses. -/
def symLex (a b : Symbol) : Prop :=
  a.address < b.address ∨ (a.address = b.address ∧ b.size ≤ a.size)

/-! ### The per-object driver loop of run (src/main.rs lines 250-338) -/

/-- Pre-parsed view of one object file (the object adapter's output). -/
structure ObjData where
  stem : String
  text : Option (List Nat)
  relocs : List Reloc
  symtab : List SymEntry
deriving DecidableEq

structure RunState where
  found : List (String × Nat × Nat)
  ambiguous : List (String × List Nat)
  notFound : List String
  symbols : List Symbol
deriving DecidableEq

def initRunState : RunState := { found := [], ambiguous := [], notFound := [], symbols := [] }

structure HitAcc where
  results : List Nat
  syms : List Symbol
  skipping : Bool
deriving DecidableEq

/-- Body of the for result in rough_results loop (src/main.rs lines 290-321). -/
def processHit (flatAmb : Bool) (base : Nat) (romWords : List Nat)
    (stencil : List PreciseStencil) (obj : ObjData) (textSize : Nat) (start : Nat)
    (acc : HitAcc) (r : Nat) : Option HitAcc :=
  let index := r / 4
  match precise_check ((romWords.drop index).take stencil.length) stencil with
  | none => none
  | some false => some acc
  | some true =>
    let results := acc.results ++ [r + start]
    if flatAmb then some { results := results, syms := acc.syms, skipping := true }
    else
      let s1 := parse_symtab_functions obj.symtab obj.stem base index
      match parse_relocated obj.relocs stencil ((romWords.drop index).take (textSize / 4)) obj.stem with
      | none => none
      | some s2 =>
        let merged := dedupByKey (fun s => s.address)
          (List.insertionSort symAddrLe (s1 ++ s2))
        some { results := results, syms := acc.syms ++ merged, skipping := acc.skipping }

/-- Processing of one object in run (src/main.rs lines 250-338): skip on
absent, zero-sized or all-zero .text; rough scan; precise stencil and precise
re-check with symbol recovery; classification by precise hit count.  A panic
anywhere (unimplemented relocation kind, out-of-bounds index) is none. -/
def processObject (flatAmb : String → Bool) (e : Endian) (base start : Nat)
    (romWords : List Nat) (st : RunState) (obj : ObjData) : Option RunState :=
  match obj.text with
  | none => some st
  | some bytes =>
    let textSize := bytes.length
    if textSize = 0 then some st
    else
      let words := words_from_bytes e bytes
      if words.all (fun x => x == 0) then some st
      else
        let rough := make_rough_stencil e bytes
        match naive_wordsearch romWords rough with
        | none => none
        | some roughResults =>
          if roughResults = [] then
            some { st with notFound := st.notFound ++ [obj.stem] }
          else
            match make_precise_stencil e bytes obj.relocs with
            | none => none
            | some stencil =>
              match roughResults.foldlM
                  (processHit (flatAmb obj.stem) base romWords stencil obj textSize start)
                  { results := [], syms := [], skipping := false } with
              | none => none
              | some acc =>
                let st1 := { st with symbols := st.symbols ++ acc.syms }
                match acc.results with
                | [] => some { st1 with notFound := st1.notFound ++ [obj.stem] }
                | [p] => some { st1 with found := st1.found ++ [(obj.stem, p, textSize)] }
                | _ => some { st1 with ambiguous := st1.ambiguous ++ [(obj.stem, acc.results)] }

/-- The object loop of run: a panic while processing any object aborts the
whole run (none); there is no per-object recovery. -/
def processObjects (flatAmb : String → Bool) (e : Endian) (base start : Nat)
    (romWords : List Nat) (st : RunState) (objs : List ObjData) : Option RunState :=
  objs.foldlM (processObject flatAmb e base start romWords) st

/-! ### Claim-side input constructions for HI/LO address assembly (claim C4) -/

/-- High half of an absolute address as the assembler emits it for
lui r,HI(A): carries the rounding of the signed low half. -/
def hiHalf (A : Nat) : Nat := ((A + 0x8000) >>> 16) &&& 0xFFFF

/-- Low half of an absolute address: LO(A). -/
def loHalf (A : Nat) : Nat := A &&& 0xFFFF

/-- lui at, HI(A) with register fields 0x3C01. -/
def luiWord (A : Nat) : Nat := 0x3C010000 ||| hiHalf A

/-- addiu at, at, LO(A) with register fields 0x2421. -/
def addiuWord (A : Nat) : Nat := 0x24210000 ||| loHalf A

/-- The unlinked two-word .text of the C4 scenario: lui at, 0; addiu at, at, 0
in big-endian bytes (HI16 and LO16 immediates still zero). -/
def c4Bytes : List Nat := [0x3C, 0x01, 0x00, 0x00, 0x24, 0x21, 0x00, 0x00]

/-- HI16 relocation at word 0 and LO16 relocation at word 1, both targeting
symbol foo with explicit addend 0. -/
def c4Relocs : List Reloc :=
  [ { offset := 0, kind := RelocKind.hi16, name := "foo", size := 0, defined := false, addend := 0 }
  , { offset := 4, kind := RelocKind.lo16, name := "foo", size := 0, defined := false, addend := 0 } ]

/-! ## Helper lemmas -/

theorem chunks4_length : ∀ l : List Nat, (chunks4 l).length = l.length / 4
  | [] => rfl
  | [_] => by simp [chunks4]
  | [_, _] => by simp [chunks4]
  | [_, _, _] => by simp [chunks4]
  | _ :: _ :: _ :: _ :: rest => by
    have ih := chunks4_length rest
    show (chunks4 rest).length + 1 = (rest.length + 1 + 1 + 1 + 1) / 4
    omega

theorem words_from_bytes_length (e : Endian) (bytes : List Nat) :
    (words_from_bytes e bytes).length = bytes.length / 4 := by
  simp [words_from_bytes, chunks4_length]

/-- Decidable rough-window predicate: the window of v starting at i matches the
rough pattern word for word. -/
def roughMatchB (v pattern : List Nat) (i : Nat) : Bool :=
  (List.range pattern.length).all
    (fun k => (v.getD (i + k) 0) &&& ROUGH_MASK == pattern.getD k 0)

theorem checkWindow_eq_of_le (v : List Nat) (i : Nat) :
    ∀ (rest : List Nat) (j : Nat), i + j + rest.length ≤ v.length →
      ∃ b, checkWindow v i rest j = some b ∧
        (b = true ↔ ∀ k < rest.length,
          (v.getD (i + j + k) 0) &&& ROUGH_MASK = rest.getD k 0) := by
  intro rest
  induction rest with
  | nil =>
    intro j _
    exact ⟨true, rfl, by simp⟩
  | cons w rs ih =>
    intro j hle
    have hij : i + j < v.length := by simp at hle; omega
    have hv : v[i + j]? = some v[i + j] := List.getElem?_eq_getElem hij
    have hvD : v.getD (i + j) 0 = v[i + j] := by simp [hv]
    by_cases hmis : v[i + j] &&& ROUGH_MASK ≠ w
    · refine ⟨false, ?_, ?_⟩
      · simp only [checkWindow, hv]
        rw [if_pos hmis]
      · constructor
        · intro h; cases h
        · intro hall
          have h0 := hall 0 (by simp)
          rw [Nat.add_zero] at h0
          rw [hvD] at h0
          simp at h0
          exact absurd h0 hmis
    · push_neg at hmis
      have hle2 : i + (j + 1) + rs.length ≤ v.length := by simp at hle ⊢; omega
      obtain ⟨b, hb, hiff⟩ := ih (j + 1) hle2
      refine ⟨b, ?_, ?_⟩
      · simp only [checkWindow, hv]
        rw [if_neg (by simpa using hmis)]
        exact hb
      · rw [hiff]
        constructor
        · intro hall k hk
          match k, hk with
          | 0, _ =>
            rw [Nat.add_zero, hvD]
            simpa using hmis
          | k + 1, hk =>
            have := hall k (by simpa using Nat.lt_of_succ_lt_succ hk)
            simpa [Nat.add_assoc, Nat.add_comm 1 k, Nat.add_left_comm] using this
        · intro hall k hk
          have := hall (k + 1) (by simpa using Nat.succ_lt_succ hk)
          simpa [Nat.add_assoc, Nat.add_comm 1 k, Nat.add_left_comm] using this

theorem checkWindow_eq_roughMatchB (v pattern : List Nat) (i : Nat)
    (h : i + pattern.length ≤ v.length) :
    checkWindow v i pattern 0 = some (roughMatchB v pattern i) := by
  obtain ⟨b, hb, hiff⟩ := checkWindow_eq_of_le v i pattern 0 (by omega)
  rw [hb]
  congr 1
  have hR : roughMatchB v pattern i = true ↔
      ∀ k < pattern.length, (v.getD (i + k) 0) &&& ROUGH_MASK = pattern.getD k 0 := by
    simp [roughMatchB]
  cases b with
  | true =>
    have := hiff.mp rfl
    simp only [Nat.add_zero] at this
    exact (hR.mpr this).symm
  | false =>
    cases hrb : roughMatchB v pattern i with
    | false => rfl
    | true =>
      have := hR.mp hrb
      have hfalse := hiff.mpr (by intro k hk; simpa using this k hk)
      cases hfalse

theorem checkWindow_true_bound (v : List Nat) (i : Nat) :
    ∀ (rest : List Nat) (j : Nat), checkWindow v i rest j = some true →
      rest = [] ∨ i + j + rest.length ≤ v.length := by
  intro rest
  induction rest with
  | nil => intro j _; exact Or.inl rfl
  | cons w rs ih =>
    intro j h
    right
    simp only [checkWindow] at h
    match hv : v[i + j]? with
    | none => rw [hv] at h; exact Option.noConfusion h
    | some x =>
      rw [hv] at h
      change (if x &&& ROUGH_MASK ≠ w then some false
        else checkWindow v i rs (j + 1)) = some true at h
      have hij : i + j < v.length := by
        by_contra hge
        rw [List.getElem?_eq_none (by omega)] at hv
        cases hv
      by_cases hmis : x &&& ROUGH_MASK ≠ w
      · rw [if_pos hmis] at h; cases h
      · rw [if_neg hmis] at h
        rcases ih (j + 1) h with hnil | hle
        · subst hnil; simp; omega
        · simp at hle ⊢; omega

theorem wsGo_eq (v pattern : List Nat) (bound : Nat)
    (hb : bound + pattern.length = v.length) :
    ∀ (fuel i : Nat), i + fuel = bound + 1 →
      wsGo v pattern bound fuel i =
        some (((List.range' i fuel).filter (roughMatchB v pattern)).map (· * 4)) := by
  intro fuel
  induction fuel with
  | zero => intro i _; simp [wsGo]
  | succ fuel ih =>
    intro i hi
    have hile : i ≤ bound := by omega
    rw [wsGo, if_pos hile]
    rw [checkWindow_eq_roughMatchB v pattern i (by omega)]
    have ih2 := ih (i + 1) (by omega)
    rw [List.range'_succ]
    cases hrm : roughMatchB v pattern i with
    | true =>
      rw [ih2]
      simp [List.filter_cons, hrm]
    | false =>
      rw [ih2]
      simp [List.filter_cons, hrm]

theorem usizeSub_eq (a b : Nat) (h : b ≤ a) (ha : a < USIZE_MOD) :
    usizeSub a b = a - b := by
  have : USIZE_MOD = 18446744073709551616 := by norm_num [USIZE_MOD]
  simp only [usizeSub, this] at *
  omega

theorem usizeSub_underflow (a b : Nat) (h : a < b) (hb : b < USIZE_MOD) :
    usizeSub a b = USIZE_MOD - (b - a) := by
  have : USIZE_MOD = 18446744073709551616 := by norm_num [USIZE_MOD]
  simp only [usizeSub, this] at *
  omega

theorem naive_wordsearch_eq (v pattern : List Nat)
    (hL : pattern.length ≤ v.length) (hv : v.length < USIZE_MOD) :
    naive_wordsearch v pattern =
      some (((List.range (v.length - pattern.length + 1)).filter
        (roughMatchB v pattern)).map (· * 4)) := by
  unfold naive_wordsearch
  rw [usizeSub_eq v.length pattern.length hL hv]
  rw [wsGo_eq v pattern (v.length - pattern.length) (by omega) _ 0 (by omega)]
  rw [List.range_eq_range']

theorem wsGo_none (v pattern : List Nat) (bound : Nat)
    (hvb : v.length ≤ bound) (hpv : v.length < pattern.length) :
    ∀ (fuel i : Nat), i ≤ v.length → v.length < i + fuel →
      wsGo v pattern bound fuel i = none := by
  cases pattern with
  | nil => simp at hpv
  | cons w rs =>
    intro fuel
    induction fuel with
    | zero => intro i h1 h2; omega
    | succ fuel ih =>
      intro i h1 h2
      have hile : i ≤ bound := by omega
      rw [wsGo, if_pos hile]
      by_cases hi : i = v.length
      · have hnone : v[i + 0]? = none := List.getElem?_eq_none (by omega)
        simp only [checkWindow, hnone]
      · have hilt : i < v.length := by omega
        match hcw : checkWindow v i (w :: rs) 0 with
        | none => rfl
        | some true =>
          exfalso
          rcases checkWindow_true_bound v i (w :: rs) 0 hcw with hnil | hle
          · cases hnil
          · simp at hle hpv; omega
        | some false =>
          exact ih (i + 1) (by omega) (by omega)

theorem naive_wordsearch_none (v pattern : List Nat)
    (hL : v.length < pattern.length) (hv : v.length < USIZE_MOD)
    (hp : pattern.length < USIZE_MOD) :
    naive_wordsearch v pattern = none := by
  unfold naive_wordsearch
  have hU : USIZE_MOD = 18446744073709551616 := by norm_num [USIZE_MOD]
  have hbound : usizeSub v.length pattern.length = USIZE_MOD - (pattern.length - v.length) :=
    usizeSub_underflow _ _ hL hp
  have hvb : v.length ≤ usizeSub v.length pattern.length := by
    rw [hbound]; omega
  exact wsGo_none v pattern _ hvb hL _ 0 (by omega) (by omega)

/-! ## Claim C9: totality and bounds of the rough word search -/

/-- C9: the rough word search on an empty pattern reports blob_len + 1 byte
offsets 0, 4, ..., 4*blob_len; with a pattern longer than the blob the usize
loop bound underflows and the search panics (modelled as none); under the
precondition 0 < pattern length <= blob word count every access is in bounds
(the search returns normally), every reported offset o is a multiple of 4 with
o / 4 + pattern_len <= blob_len, and offsets are strictly ascending.
The bounds v.length < 2^64 and pattern.length < 2^64 reflect that Rust slice
lengths are usize values. -/
theorem naive_wordsearch_spec (v pattern : List Nat)
    (hv : v.length < USIZE_MOD) (hp : pattern.length < USIZE_MOD) :
    (pattern = [] →
      naive_wordsearch v pattern = some ((List.range (v.length + 1)).map (· * 4)))
    ∧ (v.length < pattern.length →
        usizeSub v.length pattern.length = USIZE_MOD - (pattern.length - v.length)
        ∧ naive_wordsearch v pattern = none)
    ∧ (0 < pattern.length → pattern.length ≤ v.length →
        ∃ rs, naive_wordsearch v pattern = some rs
          ∧ (∀ o ∈ rs, o % 4 = 0 ∧ o / 4 + pattern.length ≤ v.length)
          ∧ rs.Pairwise (· < ·)) := by
  refine ⟨?_, ?_, ?_⟩
  · intro hpat
    subst hpat
    rw [naive_wordsearch_eq v [] (by simp) hv]
    congr 1
    rw [List.filter_eq_self.mpr (by intro a _; simp [roughMatchB])]
    simp
  · intro hlt
    exact ⟨usizeSub_underflow _ _ hlt hp, naive_wordsearch_none v pattern hlt hv hp⟩
  · intro _ hle
    refine ⟨_, naive_wordsearch_eq v pattern hle hv, ?_, ?_⟩
    · intro o ho
      simp only [List.mem_map, List.mem_filter, List.mem_range] at ho
      obtain ⟨i, ⟨hir, _⟩, rfl⟩ := ho
      constructor
      · omega
      · have : i * 4 / 4 = i := by omega
        rw [this]; omega
    · rw [List.pairwise_map]
      exact List.Pairwise.imp (fun hab => by omega)
        (List.Pairwise.filter _ (List.sorted_lt_range _))

/-- Witness for C9 at concrete inputs: all three branches instantiated. -/
theorem naive_wordsearch_spec_witness :
    naive_wordsearch [1, 2] [] = some [0, 4, 8]
    ∧ naive_wordsearch [1] [0, 0] = none
    ∧ ∃ rs, naive_wordsearch [0x0C000000, 5] [0x0C000000] = some rs
        ∧ (∀ o ∈ rs, o % 4 = 0 ∧ o / 4 + 1 ≤ 2)
        ∧ rs.Pairwise (· < ·) := by
  refine ⟨?_, ?_, ?_⟩
  · exact ((naive_wordsearch_spec [1, 2] [] (by norm_num [USIZE_MOD])
      (by norm_num [USIZE_MOD])).1 rfl).trans (by decide)
  · exact ((naive_wordsearch_spec [1] [0, 0] (by norm_num [USIZE_MOD])
      (by norm_num [USIZE_MOD])).2.1 (by decide)).2
  · exact (naive_wordsearch_spec [0x0C000000, 5] [0x0C000000] (by norm_num [USIZE_MOD])
      (by norm_num [USIZE_MOD])).2.2 (by decide) (by decide)

/-! ## Claim C8: word-reader truncation behaviour -/

/-- C8 counterexample: the claim says the word reader fails on a byte slice
whose length is not a multiple of 4 in the stencil-build path.  It does not:
make_precise_stencil uses chunks_exact(4) and silently truncates the trailing
partial word, succeeding on a 5-byte input. -/
theorem stencil_build_no_failure_counterexample :
    make_precise_stencil .big [0, 0, 0, 1, 9] [] =
      some [{ word := 1, addend := 1, mask := FULL_MASK }]
    ∧ words_from_bytes .big [0, 0, 0, 1, 9] = [1] := by
  exact ⟨rfl, rfl⟩

/-- C8 amended: neither path fails on a byte length that is not a multiple of
4; both the stencil-build reader and the blob reader use chunks_exact(4) and
silently truncate a trailing partial word (word count = byte count / 4). -/
theorem words_from_bytes_truncates (e : Endian) (bytes : List Nat) :
    (words_from_bytes e bytes).length = bytes.length / 4
    ∧ ∃ s, make_precise_stencil e bytes [] = some s ∧ s.length = bytes.length / 4 := by
  refine ⟨words_from_bytes_length e bytes,
    (chunks4 bytes).map (fun b => initStencil (wordFrom e b)), rfl, ?_⟩
  simp [chunks4_length]

/-! ## Precise stencil invariants -/

theorem make_precise_stencil_eq (e : Endian) (bytes : List Nat) (relocs : List Reloc) :
    make_precise_stencil e bytes relocs =
      relocs.foldlM applyReloc ((words_from_bytes e bytes).map initStencil) := by
  rw [make_precise_stencil, words_from_bytes, List.map_map]
  rfl

theorem wordFrom_lt (e : Endian) (b : Nat × Nat × Nat × Nat)
    (h0 : b.1 < 256) (h1 : b.2.1 < 256) (h2 : b.2.2.1 < 256) (h3 : b.2.2.2 < 256) :
    wordFrom e b < U32_MOD := by
  obtain ⟨b0, b1, b2, b3⟩ := b
  simp only at h0 h1 h2 h3
  have e24 : b0 <<< 24 = b0 * 16777216 := by rw [Nat.shiftLeft_eq]
  have e16 : b1 <<< 16 = b1 * 65536 := by rw [Nat.shiftLeft_eq]
  have e8 : b2 <<< 8 = b2 * 256 := by rw [Nat.shiftLeft_eq]
  have e24b : b3 <<< 24 = b3 * 16777216 := by rw [Nat.shiftLeft_eq]
  have e16b : b2 <<< 16 = b2 * 65536 := by rw [Nat.shiftLeft_eq]
  have e8b : b1 <<< 8 = b1 * 256 := by rw [Nat.shiftLeft_eq]
  have hU : U32_MOD = 2 ^ 32 := rfl
  have h32 : (2 : Nat) ^ 32 = 4294967296 := by norm_num
  cases e with
  | big =>
    show (b0 <<< 24 ||| b1 <<< 16 ||| b2 <<< 8 ||| b3) < U32_MOD
    rw [hU]
    apply Nat.or_lt_two_pow
    apply Nat.or_lt_two_pow
    apply Nat.or_lt_two_pow
    · rw [e24, h32]; omega
    · rw [e16, h32]; omega
    · rw [e8, h32]; omega
    · rw [h32]; omega
  | little =>
    show (b3 <<< 24 ||| b2 <<< 16 ||| b1 <<< 8 ||| b0) < U32_MOD
    rw [hU]
    apply Nat.or_lt_two_pow
    apply Nat.or_lt_two_pow
    apply Nat.or_lt_two_pow
    · rw [e24b, h32]; omega
    · rw [e16b, h32]; omega
    · rw [e8b, h32]; omega
    · rw [h32]; omega

theorem chunks4_mem : ∀ (l : List Nat) (b : Nat × Nat × Nat × Nat), b ∈ chunks4 l →
    b.1 ∈ l ∧ b.2.1 ∈ l ∧ b.2.2.1 ∈ l ∧ b.2.2.2 ∈ l
  | [], _, hb => by simp [chunks4] at hb
  | [_], _, hb => by simp [chunks4] at hb
  | [_, _], _, hb => by simp [chunks4] at hb
  | [_, _, _], _, hb => by simp [chunks4] at hb
  | b0 :: b1 :: b2 :: b3 :: rest, b, hb => by
    rw [show chunks4 (b0 :: b1 :: b2 :: b3 :: rest) = (b0, b1, b2, b3) :: chunks4 rest from rfl,
      List.mem_cons] at hb
    rcases hb with rfl | hb
    · simp
    · have := chunks4_mem rest b hb
      simp only [List.mem_cons]
      tauto

theorem words_from_bytes_lt (e : Endian) (bytes : List Nat)
    (hb : ∀ b ∈ bytes, b < 256) :
    ∀ w ∈ words_from_bytes e bytes, w < U32_MOD := by
  intro w hw
  rw [words_from_bytes, List.mem_map] at hw
  obtain ⟨c, hc, rfl⟩ := hw
  have hm := chunks4_mem bytes c hc
  exact wordFrom_lt e c (hb _ hm.1) (hb _ hm.2.1) (hb _ hm.2.2.1) (hb _ hm.2.2.2)

/-- The invariant each precise stencil entry keeps relative to its original
.text word: the kept value is the masked word and the mask always retains at
least the rough opcode bits. -/
def stencilInv (w : Nat) (st : PreciseStencil) : Prop :=
  w < U32_MOD ∧ st.word = w &&& st.mask ∧ st.mask &&& ROUGH_MASK = ROUGH_MASK

theorem stencilInv_init (w : Nat) (hw : w < U32_MOD) : stencilInv w (initStencil w) := by
  refine ⟨hw, ?_, ?_⟩
  · show w = w &&& FULL_MASK
    have hF : FULL_MASK = 2 ^ 32 - 1 := by norm_num [FULL_MASK]
    rw [hF, Nat.and_pow_two_sub_one_eq_mod]
    exact (Nat.mod_eq_of_lt hw).symm
  · show FULL_MASK &&& ROUGH_MASK = ROUGH_MASK
    decide

theorem stencilInv_upd (k : RelocKind) (w : Nat) (st : PreciseStencil)
    (h : stencilInv w st) : stencilInv w (applyKindUpd k st) := by
  obtain ⟨hw, hword, hmask⟩ := h
  cases k with
  | mips26 =>
    refine ⟨hw, ?_, ?_⟩
    · show st.word &&& J_TYPE_MASK = w &&& (st.mask &&& J_TYPE_MASK)
      rw [hword, Nat.and_assoc]
    · show (st.mask &&& J_TYPE_MASK) &&& ROUGH_MASK = ROUGH_MASK
      rw [Nat.and_assoc, show J_TYPE_MASK &&& ROUGH_MASK = ROUGH_MASK from by decide, hmask]
  | hi16 =>
    refine ⟨hw, ?_, ?_⟩
    · show st.word &&& I_TYPE_MASK = w &&& (st.mask &&& I_TYPE_MASK)
      rw [hword, Nat.and_assoc]
    · show (st.mask &&& I_TYPE_MASK) &&& ROUGH_MASK = ROUGH_MASK
      rw [Nat.and_assoc, show I_TYPE_MASK &&& ROUGH_MASK = ROUGH_MASK from by decide, hmask]
  | lo16 =>
    refine ⟨hw, ?_, ?_⟩
    · show st.word &&& I_TYPE_MASK = w &&& (st.mask &&& I_TYPE_MASK)
      rw [hword, Nat.and_assoc]
    · show (st.mask &&& I_TYPE_MASK) &&& ROUGH_MASK = ROUGH_MASK
      rw [Nat.and_assoc, show I_TYPE_MASK &&& ROUGH_MASK = ROUGH_MASK from by decide, hmask]
  | other => exact ⟨hw, hword, hmask⟩

theorem applyReloc_eq (s : List PreciseStencil) (r : Reloc) (hk : r.kind ≠ RelocKind.other) :
    applyReloc s r =
      match s[r.offset / 4]? with
      | none => none
      | some e => some (s.set (r.offset / 4) (applyKindUpd r.kind e)) := by
  unfold applyReloc
  cases hk2 : r.kind with
  | other => exact absurd hk2 hk
  | mips26 => rfl
  | hi16 => rfl
  | lo16 => rfl

theorem applyReloc_other (s : List PreciseStencil) (r : Reloc)
    (hk : r.kind = RelocKind.other) : applyReloc s r = none := by
  unfold applyReloc
  rw [hk]

theorem applyReloc_some_elim (s s' : List PreciseStencil) (r : Reloc)
    (h : applyReloc s r = some s') :
    r.kind ≠ RelocKind.other
    ∧ ∃ e, s[r.offset / 4]? = some e ∧ s' = s.set (r.offset / 4) (applyKindUpd r.kind e) := by
  have hk : r.kind ≠ RelocKind.other := by
    intro hk
    rw [applyReloc_other s r hk] at h
    cases h
  refine ⟨hk, ?_⟩
  rw [applyReloc_eq s r hk] at h
  match hget : s[r.offset / 4]? with
  | none => rw [hget] at h; cases h
  | some e =>
    rw [hget] at h
    exact ⟨e, rfl, (Option.some.injEq _ _ ▸ h).symm⟩

theorem forall₂_set_upd (ws : List Nat) (s : List PreciseStencil)
    (h : List.Forall₂ stencilInv ws s) (idx : Nat) (e : PreciseStencil)
    (hget : s[idx]? = some e) (k : RelocKind) :
    List.Forall₂ stencilInv ws (s.set idx (applyKindUpd k e)) := by
  rw [List.forall₂_iff_get] at h ⊢
  obtain ⟨hlen, hR⟩ := h
  refine ⟨by simpa using hlen, ?_⟩
  intro i h1 h2
  simp only [List.length_set] at h2
  obtain ⟨hidx, hse⟩ := List.getElem?_eq_some_iff.mp hget
  by_cases hi : i = idx
  · subst hi
    simp only [List.get_eq_getElem, List.getElem_set_self]
    have := hR i h1 hidx
    simp only [List.get_eq_getElem] at this
    rw [hse] at this
    exact stencilInv_upd k _ _ this
  · simp only [List.get_eq_getElem, List.getElem_set_ne (fun hh => hi hh.symm)]
    have := hR i h1 h2
    simpa using this

theorem foldlM_applyReloc_inv (ws : List Nat) :
    ∀ (relocs : List Reloc) (s s' : List PreciseStencil),
      List.Forall₂ stencilInv ws s → relocs.foldlM applyReloc s = some s' →
      List.Forall₂ stencilInv ws s' := by
  intro relocs
  induction relocs with
  | nil =>
    intro s s' h hf
    simp only [List.foldlM_nil] at hf
    cases hf
    exact h
  | cons r rest ih =>
    intro s s' h hf
    rw [List.foldlM_cons] at hf
    match happly : applyReloc s r with
    | none => rw [happly] at hf; cases hf
    | some s1 =>
      rw [happly] at hf
      obtain ⟨_, e, hget, rfl⟩ := applyReloc_some_elim s s1 r happly
      exact ih _ _ (forall₂_set_upd ws s h _ e hget r.kind) hf

theorem make_precise_stencil_inv (e : Endian) (bytes : List Nat) (relocs : List Reloc)
    (ps : List PreciseStencil) (hb : ∀ b ∈ bytes, b < 256)
    (hps : make_precise_stencil e bytes relocs = some ps) :
    List.Forall₂ stencilInv (words_from_bytes e bytes) ps := by
  rw [make_precise_stencil_eq] at hps
  apply foldlM_applyReloc_inv _ relocs _ _ _ hps
  rw [List.forall₂_map_right_iff]
  rw [List.forall₂_same]
  intro w hw
  exact stencilInv_init w (words_from_bytes_lt e bytes hb w hw)

theorem foldlM_applyReloc_length :
    ∀ (relocs : List Reloc) (s s' : List PreciseStencil),
      relocs.foldlM applyReloc s = some s' → s'.length = s.length := by
  intro relocs
  induction relocs with
  | nil =>
    intro s s' hf
    simp only [List.foldlM_nil] at hf
    cases hf
    rfl
  | cons r rest ih =>
    intro s s' hf
    rw [List.foldlM_cons] at hf
    match happly : applyReloc s r with
    | none => rw [happly] at hf; cases hf
    | some s1 =>
      rw [happly] at hf
      obtain ⟨_, e, hget, rfl⟩ := applyReloc_some_elim s s1 r happly
      rw [ih _ _ hf]
      simp

theorem foldlM_applyReloc_untouched :
    ∀ (relocs : List Reloc) (s s' : List PreciseStencil) (j : Nat),
      (∀ r ∈ relocs, r.offset / 4 ≠ j) →
      relocs.foldlM applyReloc s = some s' → s'[j]? = s[j]? := by
  intro relocs
  induction relocs with
  | nil =>
    intro s s' j _ hf
    simp only [List.foldlM_nil] at hf
    cases hf
    rfl
  | cons r rest ih =>
    intro s s' j hno hf
    rw [List.foldlM_cons] at hf
    match happly : applyReloc s r with
    | none => rw [happly] at hf; cases hf
    | some s1 =>
      rw [happly] at hf
      obtain ⟨_, e, hget, rfl⟩ := applyReloc_some_elim s s1 r happly
      rw [ih _ _ j (fun r' hr' => hno r' (List.mem_cons_of_mem _ hr')) hf]
      exact List.getElem?_set_ne (fun hh => hno r (List.mem_cons_self _ _) hh)

theorem foldlM_applyReloc_no_other :
    ∀ (relocs : List Reloc) (s s' : List PreciseStencil),
      relocs.foldlM applyReloc s = some s' →
      ∀ r ∈ relocs, r.kind ≠ RelocKind.other := by
  intro relocs
  induction relocs with
  | nil => intro s s' _ r hr; simp at hr
  | cons r0 rest ih =>
    intro s s' hf r hr
    rw [List.foldlM_cons] at hf
    match happly : applyReloc s r0 with
    | none => rw [happly] at hf; cases hf
    | some s1 =>
      rw [happly] at hf
      rcases List.mem_cons.mp hr with rfl | hr
      · exact (applyReloc_some_elim s s1 r happly).1
      · exact ih s1 s' hf r hr

theorem foldlM_applyReloc_hit :
    ∀ (relocs : List Reloc) (s s' : List PreciseStencil) (r : Reloc) (j : Nat),
      (relocs.map (fun r => r.offset / 4)).Nodup →
      r ∈ relocs → r.offset / 4 = j →
      relocs.foldlM applyReloc s = some s' →
      ∃ e, s[j]? = some e ∧ s'[j]? = some (applyKindUpd r.kind e) := by
  intro relocs
  induction relocs with
  | nil => intro s s' r j _ hr; simp at hr
  | cons r0 rest ih =>
    intro s s' r j hnd hr hj hf
    subst hj
    rw [List.foldlM_cons] at hf
    match happly : applyReloc s r0 with
    | none => rw [happly] at hf; cases hf
    | some s1 =>
      rw [happly] at hf
      obtain ⟨_, e, hget, hs1⟩ := applyReloc_some_elim s s1 r0 happly
      simp only [List.map_cons, List.nodup_cons] at hnd
      rcases List.mem_cons.mp hr with rfl | hrr
      · refine ⟨e, hget, ?_⟩
        have hrest : ∀ r' ∈ rest, r'.offset / 4 ≠ r.offset / 4 := by
          intro r' hr' heq
          exact hnd.1 (heq ▸ List.mem_map_of_mem (fun r => r.offset / 4) hr')
        rw [foldlM_applyReloc_untouched rest s1 s' _ hrest hf, hs1]
        obtain ⟨hidx, _⟩ := List.getElem?_eq_some_iff.mp hget
        exact List.getElem?_set_self hidx
      · have hne : r0.offset / 4 ≠ r.offset / 4 := by
          intro heq
          exact hnd.1 (heq ▸ List.mem_map_of_mem (fun r => r.offset / 4) hrr)
        have hs1j : s1[r.offset / 4]? = s[r.offset / 4]? := by
          rw [hs1]
          exact List.getElem?_set_ne hne
        obtain ⟨e', hget', hres⟩ := ih s1 s' r _ hnd.2 hrr rfl hf
        exact ⟨e', hs1j.symm.trans hget', hres⟩

/-! ## Claim C1: the precise stencil mask invariant -/

/-- C1 counterexample: for a word with no relocation the builder leaves
addend = the raw word, not 0, and (w &&& ~mask) = 0 differs from addend for
any nonzero word.  Here .text is the single big-endian word 1 with no
relocations. -/
theorem stencil_addend_counterexample :
    make_precise_stencil Endian.big [0, 0, 0, 1] [] =
      some [{ word := 1, addend := 1, mask := FULL_MASK }]
    ∧ ¬ ((1 : Nat) &&& compl32 FULL_MASK = 1)
    ∧ ({ word := 1, addend := 1, mask := FULL_MASK } : PreciseStencil).addend ≠ 0 := by
  exact ⟨rfl, by decide, by decide⟩

/-- C1 (amended): (w &&& mask) = word holds at every word index; the addend
identity (w &&& ~mask) = addend holds at every index touched by a relocation
(with at most one relocation per word); at an index with no relocation the
entry is the initial identity word = w, addend = w (the raw word, not 0),
mask = 0xFFFF_FFFF. -/
theorem precise_stencil_invariant (e : Endian) (bytes : List Nat) (relocs : List Reloc)
    (ps : List PreciseStencil)
    (hb : ∀ b ∈ bytes, b < 256)
    (hnd : (relocs.map (fun r => r.offset / 4)).Nodup)
    (hps : make_precise_stencil e bytes relocs = some ps) :
    ps.length = (words_from_bytes e bytes).length
    ∧ ∀ j < (words_from_bytes e bytes).length,
        ((words_from_bytes e bytes).getD j 0) &&& (ps.getD j (initStencil 0)).mask
            = (ps.getD j (initStencil 0)).word
        ∧ ((∃ r ∈ relocs, r.offset / 4 = j) →
            ((words_from_bytes e bytes).getD j 0) &&& compl32 (ps.getD j (initStencil 0)).mask
              = (ps.getD j (initStencil 0)).addend)
        ∧ ((∀ r ∈ relocs, r.offset / 4 ≠ j) →
            ps.getD j (initStencil 0) = initStencil ((words_from_bytes e bytes).getD j 0)) := by
  have hinv := make_precise_stencil_inv e bytes relocs ps hb hps
  have hlen : (words_from_bytes e bytes).length = ps.length := hinv.length_eq
  have hfold := make_precise_stencil_eq e bytes relocs ▸ hps
  refine ⟨hlen.symm, ?_⟩
  intro j hj
  have hjp : j < ps.length := hlen ▸ hj
  have hwq : (words_from_bytes e bytes)[j]? = some ((words_from_bytes e bytes)[j]) :=
    List.getElem?_eq_getElem hj
  have hpq : ps[j]? = some (ps[j]) := List.getElem?_eq_getElem hjp
  have hwD : (words_from_bytes e bytes).getD j 0 = (words_from_bytes e bytes)[j] := by
    simp [hwq]
  have hpD : ps.getD j (initStencil 0) = ps[j] := by simp [hpq]
  have hR : stencilInv ((words_from_bytes e bytes)[j]) (ps[j]) := by
    have := (List.forall₂_iff_get.mp hinv).2 j hj hjp
    simpa using this
  have hinit : ((words_from_bytes e bytes).map initStencil)[j]? =
      some (initStencil ((words_from_bytes e bytes)[j])) := by
    simp [List.getElem?_map, hwq]
  refine ⟨?_, ?_, ?_⟩
  · rw [hwD, hpD]
    exact hR.2.1.symm
  · rintro ⟨r, hr, hj'⟩
    have hnone := foldlM_applyReloc_no_other relocs _ ps hfold r hr
    obtain ⟨ei, hgi, hgo⟩ := foldlM_applyReloc_hit relocs _ ps r j hnd hr hj' hfold
    rw [hinit] at hgi
    cases hgi
    have hpj : ps[j] = applyKindUpd r.kind (initStencil ((words_from_bytes e bytes)[j])) := by
      rw [hpq] at hgo
      exact Option.some.inj hgo
    rw [hwD, hpD, hpj]
    cases hk : r.kind with
    | other => exact absurd hk hnone
    | mips26 =>
      show (words_from_bytes e bytes)[j] &&& compl32 (FULL_MASK &&& J_TYPE_MASK)
        = (words_from_bytes e bytes)[j] &&& compl32 J_TYPE_MASK
      rw [show FULL_MASK &&& J_TYPE_MASK = J_TYPE_MASK from by decide]
    | hi16 =>
      show (words_from_bytes e bytes)[j] &&& compl32 (FULL_MASK &&& I_TYPE_MASK)
        = (words_from_bytes e bytes)[j] &&& compl32 I_TYPE_MASK
      rw [show FULL_MASK &&& I_TYPE_MASK = I_TYPE_MASK from by decide]
    | lo16 =>
      show (words_from_bytes e bytes)[j] &&& compl32 (FULL_MASK &&& I_TYPE_MASK)
        = (words_from_bytes e bytes)[j] &&& compl32 I_TYPE_MASK
      rw [show FULL_MASK &&& I_TYPE_MASK = I_TYPE_MASK from by decide]
  · intro hno
    have huntouched := foldlM_applyReloc_untouched relocs _ ps j hno hfold
    rw [hinit] at huntouched
    rw [hpD, hwD]
    rw [hpq] at huntouched
    exact Option.some.inj huntouched

/-- Witness for C1 (amended) on the two-word .text 0x0C000010, 0x24210005 with
one J26 relocation at word 0. -/
theorem precise_stencil_invariant_witness :
    ([{ word := 0x0C000000, addend := 0x10, mask := 0xFC000000 },
      { word := 0x24210005, addend := 0x24210005, mask := 0xFFFFFFFF }] :
        List PreciseStencil).length
      = (words_from_bytes Endian.big [0x0C, 0, 0, 0x10, 0x24, 0x21, 0, 5]).length
    ∧ ∀ j < (words_from_bytes Endian.big [0x0C, 0, 0, 0x10, 0x24, 0x21, 0, 5]).length,
        ((words_from_bytes Endian.big [0x0C, 0, 0, 0x10, 0x24, 0x21, 0, 5]).getD j 0) &&&
            (([{ word := 0x0C000000, addend := 0x10, mask := 0xFC000000 },
               { word := 0x24210005, addend := 0x24210005, mask := 0xFFFFFFFF }] :
                List PreciseStencil).getD j (initStencil 0)).mask
          = (([{ word := 0x0C000000, addend := 0x10, mask := 0xFC000000 },
               { word := 0x24210005, addend := 0x24210005, mask := 0xFFFFFFFF }] :
                List PreciseStencil).getD j (initStencil 0)).word
        ∧ ((∃ r ∈ [({ offset := 0, kind := RelocKind.mips26, name := "t", size := 0,
                      defined := true, addend := 0 } : Reloc)], r.offset / 4 = j) →
            ((words_from_bytes Endian.big [0x0C, 0, 0, 0x10, 0x24, 0x21, 0, 5]).getD j 0) &&&
                compl32 (([{ word := 0x0C000000, addend := 0x10, mask := 0xFC000000 },
                  { word := 0x24210005, addend := 0x24210005, mask := 0xFFFFFFFF }] :
                    List PreciseStencil).getD j (initStencil 0)).mask
              = (([{ word := 0x0C000000, addend := 0x10, mask := 0xFC000000 },
                  { word := 0x24210005, addend := 0x24210005, mask := 0xFFFFFFFF }] :
                    List PreciseStencil).getD j (initStencil 0)).addend)
        ∧ ((∀ r ∈ [({ offset := 0, kind := RelocKind.mips26, name := "t", size := 0,
                      defined := true, addend := 0 } : Reloc)], r.offset / 4 ≠ j) →
            ([{ word := 0x0C000000, addend := 0x10, mask := 0xFC000000 },
              { word := 0x24210005, addend := 0x24210005, mask := 0xFFFFFFFF }] :
                List PreciseStencil).getD j (initStencil 0)
              = initStencil
                  ((words_from_bytes Endian.big [0x0C, 0, 0, 0x10, 0x24, 0x21, 0, 5]).getD j 0)) :=
  precise_stencil_invariant Endian.big [0x0C, 0, 0, 0x10, 0x24, 0x21, 0, 5]
    [{ offset := 0, kind := RelocKind.mips26, name := "t", size := 0,
       defined := true, addend := 0 }]
    [{ word := 0x0C000000, addend := 0x10, mask := 0xFC000000 },
     { word := 0x24210005, addend := 0x24210005, mask := 0xFFFFFFFF }]
    (by decide) (by decide) rfl

/-! ## Two-phase matcher characterization (claims C2 and C6) -/

theorem zip_all_iff : ∀ (xs : List Nat) (ss : List PreciseStencil), xs.length = ss.length →
    (((xs.zip ss).all (fun p => p.1 &&& p.2.mask == p.2.word)) = true ↔
      ∀ j < ss.length,
        (xs.getD j 0) &&& (ss.getD j (initStencil 0)).mask = (ss.getD j (initStencil 0)).word)
  | [], [], _ => by simp
  | [], s :: ss, h => by simp at h
  | x :: xs, [], h => by simp at h
  | x :: xs, s :: ss, h => by
    have ih := zip_all_iff xs ss (by simpa using h)
    simp only [List.zip_cons_cons, List.all_cons, Bool.and_eq_true, beq_iff_eq, ih]
    constructor
    · rintro ⟨h0, hrest⟩ j hj
      match j, hj with
      | 0, _ => simpa using h0
      | j + 1, hj => simpa using hrest j (by simpa using Nat.lt_of_succ_lt_succ hj)
    · intro hall
      refine ⟨by simpa using hall 0 (by simp), ?_⟩
      intro j hj
      simpa using hall (j + 1) (by simpa using Nat.succ_lt_succ hj)

theorem window_length (rom : List Nat) (i L : Nat) (hle : i + L ≤ rom.length) :
    ((rom.drop i).take L).length = L := by
  simp only [List.length_take, List.length_drop]
  omega

theorem window_getD (rom : List Nat) (i L j : Nat) (hj : j < L) :
    ((rom.drop i).take L).getD j 0 = rom.getD (i + j) 0 := by
  simp only [List.getD_eq_getElem?_getD]
  rw [List.getElem?_take_of_lt hj, List.getElem?_drop]

/-- Decidable precise-window predicate at rough hit r (byte offset). -/
def passB (romWords : List Nat) (stencil : List PreciseStencil) (r : Nat) : Bool :=
  (((romWords.drop (r / 4)).take stencil.length).zip stencil).all
    (fun p => p.1 &&& p.2.mask == p.2.word)

theorem searchTextStep_fold (romWords : List Nat) (stencil : List PreciseStencil) (start : Nat) :
    ∀ (rs : List Nat) (acc : List Nat),
      (∀ r ∈ rs, r / 4 + stencil.length ≤ romWords.length) →
      rs.foldlM (searchTextStep romWords stencil start) acc =
        some (acc ++ (rs.filter (passB romWords stencil)).map (· + start)) := by
  intro rs
  induction rs with
  | nil => intro acc _; simp
  | cons r rest ih =>
    intro acc hbound
    rw [List.foldlM_cons]
    have hwl : ((romWords.drop (r / 4)).take stencil.length).length = stencil.length :=
      window_length _ _ _ (hbound r (List.mem_cons_self _ _))
    have hstep : searchTextStep romWords stencil start acc r =
        some (if passB romWords stencil r then acc ++ [r + start] else acc) := by
      show (match precise_check ((romWords.drop (r / 4)).take stencil.length) stencil with
        | none => none
        | some true => some (acc ++ [r + start])
        | some false => some acc) =
          some (if passB romWords stencil r then acc ++ [r + start] else acc)
      rw [show precise_check ((romWords.drop (r / 4)).take stencil.length) stencil =
          some (passB romWords stencil r) from by rw [precise_check, if_pos hwl]; rfl]
      cases hpb : passB romWords stencil r <;> simp
    rw [hstep]
    show rest.foldlM (searchTextStep romWords stencil start) _ = _
    rw [ih _ (fun r' hr' => hbound r' (List.mem_cons_of_mem _ hr'))]
    rw [List.filter_cons]
    cases hpb : passB romWords stencil r <;> simp

theorem roughMatchB_of_maskEq (romWords : List Nat) (ws : List Nat) (ps : List PreciseStencil)
    (hinv : List.Forall₂ stencilInv ws ps) (i : Nat)
    (hmask : ∀ j < ps.length,
      (romWords.getD (i + j) 0) &&& (ps.getD j (initStencil 0)).mask
        = (ps.getD j (initStencil 0)).word) :
    roughMatchB romWords (ws.map (fun w => w &&& ROUGH_MASK)) i = true := by
  have hlen : ws.length = ps.length := hinv.length_eq
  rw [roughMatchB]
  rw [List.all_eq_true]
  intro k hk
  rw [List.mem_range, List.length_map] at hk
  have hkp : k < ps.length := hlen ▸ hk
  have hwq : ws[k]? = some (ws[k]) := List.getElem?_eq_getElem hk
  have hpq : ps[k]? = some (ps[k]) := List.getElem?_eq_getElem hkp
  have hmapD : (ws.map (fun w => w &&& ROUGH_MASK)).getD k 0 = ws[k] &&& ROUGH_MASK := by
    simp [List.getElem?_map, hwq]
  have hpD : ps.getD k (initStencil 0) = ps[k] := by simp [hpq]
  have hwD : ws.getD k 0 = ws[k] := by simp [hwq]
  have hR : stencilInv (ws[k]) (ps[k]) := by
    have := (List.forall₂_iff_get.mp hinv).2 k hk hkp
    simpa using this
  have hm := hmask k hkp
  rw [hpD] at hm
  rw [hmapD]
  rw [beq_iff_eq]
  calc romWords.getD (i + k) 0 &&& ROUGH_MASK
      = romWords.getD (i + k) 0 &&& ((ps[k]).mask &&& ROUGH_MASK) := by rw [hR.2.2]
    _ = (romWords.getD (i + k) 0 &&& (ps[k]).mask) &&& ROUGH_MASK := by rw [Nat.and_assoc]
    _ = (ps[k]).word &&& ROUGH_MASK := by rw [hm]
    _ = (ws[k] &&& (ps[k]).mask) &&& ROUGH_MASK := by rw [hR.2.1]
    _ = ws[k] &&& ((ps[k]).mask &&& ROUGH_MASK) := by rw [Nat.and_assoc]
    _ = ws[k] &&& ROUGH_MASK := by rw [hR.2.2]

theorem passB_iff (romWords : List Nat) (ps : List PreciseStencil) (i : Nat)
    (hle : i + ps.length ≤ romWords.length) :
    passB romWords ps (i * 4) = true ↔
      ∀ j < ps.length,
        (romWords.getD (i + j) 0) &&& (ps.getD j (initStencil 0)).mask
          = (ps.getD j (initStencil 0)).word := by
  have hi4 : i * 4 / 4 = i := by omega
  rw [passB, hi4]
  rw [zip_all_iff _ _ (window_length _ _ _ hle)]
  constructor
  · intro h j hj
    have := h j hj
    rwa [window_getD _ _ _ _ hj] at this
  · intro h j hj
    rw [window_getD _ _ _ _ hj]
    exact h j hj

/-- Core characterization of the two-phase matcher: with non-empty .text that
fits in the blob and a successfully built precise stencil, the pipeline
returns normally and reports exactly the byte offsets i*4 + start at which
every precise masked-word equality holds. -/
theorem searchText_mem_iff (romWords : List Nat) (e : Endian) (bytes : List Nat)
    (relocs : List Reloc) (start : Nat) (ps : List PreciseStencil)
    (hb : ∀ b ∈ bytes, b < 256)
    (hL : 0 < (words_from_bytes e bytes).length)
    (hlen : (words_from_bytes e bytes).length ≤ romWords.length)
    (hrom : romWords.length < USIZE_MOD)
    (hps : make_precise_stencil e bytes relocs = some ps) :
    ∃ out, searchText romWords e bytes relocs start = some out
      ∧ ∀ i : Nat, (i * 4 + start ∈ out ↔
          (i + ps.length ≤ romWords.length
            ∧ ∀ j < ps.length,
                (romWords.getD (i + j) 0) &&& (ps.getD j (initStencil 0)).mask
                  = (ps.getD j (initStencil 0)).word)) := by
  have hinv := make_precise_stencil_inv e bytes relocs ps hb hps
  have hlenps : (words_from_bytes e bytes).length = ps.length := hinv.length_eq
  have hrough : make_rough_stencil e bytes =
      (words_from_bytes e bytes).map (fun w => w &&& ROUGH_MASK) := rfl
  have hroughlen : (make_rough_stencil e bytes).length = ps.length := by
    rw [hrough, List.length_map, hlenps]
  have hnaive := naive_wordsearch_eq romWords (make_rough_stencil e bytes)
    (by rw [hroughlen]; omega) hrom
  rw [searchText]
  rw [hnaive]
  set RR := ((List.range (romWords.length - (make_rough_stencil e bytes).length + 1)).filter
    (roughMatchB romWords (make_rough_stencil e bytes))).map (· * 4) with hRR
  have hmem_RR : ∀ i : Nat, i * 4 ∈ RR ↔
      (i ≤ romWords.length - ps.length
        ∧ roughMatchB romWords (make_rough_stencil e bytes) i = true) := by
    intro i
    rw [hRR]
    simp only [List.mem_map, List.mem_filter, List.mem_range]
    constructor
    · rintro ⟨i', ⟨hi', hrm⟩, heq⟩
      have : i' = i := by omega
      subst this
      rw [hroughlen] at hi'
      exact ⟨by omega, hrm⟩
    · rintro ⟨hi, hrm⟩
      exact ⟨i, ⟨by rw [hroughlen]; omega, hrm⟩, rfl⟩
  have hRR_bound : ∀ r ∈ RR, r / 4 + ps.length ≤ romWords.length := by
    intro r hr
    rw [hRR] at hr
    simp only [List.mem_map, List.mem_filter, List.mem_range] at hr
    obtain ⟨i', ⟨hi', _⟩, rfl⟩ := hr
    rw [hroughlen] at hi'
    have : i' * 4 / 4 = i' := by omega
    rw [this]
    omega
  have hiff_core : ∀ i : Nat,
      ((i ≤ romWords.length - ps.length
          ∧ roughMatchB romWords (make_rough_stencil e bytes) i = true)
        ∧ passB romWords ps (i * 4) = true) ↔
      (i + ps.length ≤ romWords.length
        ∧ ∀ j < ps.length,
            (romWords.getD (i + j) 0) &&& (ps.getD j (initStencil 0)).mask
              = (ps.getD j (initStencil 0)).word) := by
    intro i
    constructor
    · rintro ⟨⟨hi, _⟩, hpass⟩
      have hle : i + ps.length ≤ romWords.length := by omega
      exact ⟨hle, (passB_iff romWords ps i hle).mp hpass⟩
    · rintro ⟨hle, hmask⟩
      have hi : i ≤ romWords.length - ps.length := by omega
      refine ⟨⟨hi, ?_⟩, (passB_iff romWords ps i hle).mpr hmask⟩
      rw [hrough]
      exact roughMatchB_of_maskEq romWords _ ps hinv i hmask
  by_cases hempty : RR = []
  · refine ⟨[], ?_, ?_⟩
    · show (if RR = [] then some ([] : List Nat)
        else match make_precise_stencil e bytes relocs with
          | none => none
          | some stencil => List.foldlM (searchTextStep romWords stencil start) [] RR) = some []
      rw [if_pos hempty]
    · intro i
      simp only [List.not_mem_nil, false_iff]
      intro hrhs
      have hin : i * 4 ∈ RR := (hmem_RR i).mpr ((hiff_core i).mpr hrhs).1
      rw [hempty] at hin
      simp at hin
  · refine ⟨(RR.filter (passB romWords ps)).map (· + start), ?_, ?_⟩
    · show (if RR = [] then some ([] : List Nat)
        else match make_precise_stencil e bytes relocs with
          | none => none
          | some stencil => List.foldlM (searchTextStep romWords stencil start) [] RR) = _
      rw [if_neg hempty, hps]
      show List.foldlM (searchTextStep romWords ps start) [] RR = _
      rw [searchTextStep_fold romWords ps start RR [] hRR_bound]
      rw [List.nil_append]
    · intro i
      constructor
      · intro hmem
        simp only [List.mem_map, List.mem_filter] at hmem
        obtain ⟨r, ⟨hrRR, hrpass⟩, heq⟩ := hmem
        have hr4 : r = i * 4 := by omega
        subst hr4
        exact (hiff_core i).mp ⟨(hmem_RR i).mp hrRR, hrpass⟩
      · intro hrhs
        have hcore := (hiff_core i).mpr hrhs
        simp only [List.mem_map, List.mem_filter]
        exact ⟨i * 4, ⟨(hmem_RR i).mpr hcore.1, hcore.2⟩, rfl⟩

/-- C2: the two-phase matcher (rough scan then precise re-check) reports byte
offset i*4 plus the blob region start exactly when the precise masked equality
(blob[i+j] &&& precise[j].mask) = precise[j].word holds for every j below the
stencil length: the rough prefilter loses no location satisfying the precise
equality and every reported location satisfies it. -/
theorem two_phase_match_iff (romWords : List Nat) (e : Endian) (bytes : List Nat)
    (relocs : List Reloc) (start : Nat) (ps : List PreciseStencil)
    (hb : ∀ b ∈ bytes, b < 256)
    (hL : 0 < (words_from_bytes e bytes).length)
    (hlen : (words_from_bytes e bytes).length ≤ romWords.length)
    (hrom : romWords.length < USIZE_MOD)
    (hps : make_precise_stencil e bytes relocs = some ps) :
    ∃ out, searchText romWords e bytes relocs start = some out
      ∧ ∀ i : Nat, (i * 4 + start ∈ out ↔
          (i + ps.length ≤ romWords.length
            ∧ ∀ j < ps.length,
                (romWords.getD (i + j) 0) &&& (ps.getD j (initStencil 0)).mask
                  = (ps.getD j (initStencil 0)).word)) :=
  searchText_mem_iff romWords e bytes relocs start ps hb hL hlen hrom hps

/-- Witness for C2: 2-word object with a J26 relocation, matched inside a
2-word blob whose jump target bits differ from the object (relocation
invariance), reported at byte offset 0 plus region start 0x1000. -/
theorem two_phase_match_iff_witness :
    ∃ out, searchText [0x0C000064, 0x24210005] Endian.big
        [0x0C, 0, 0, 0x10, 0x24, 0x21, 0, 5]
        [{ offset := 0, kind := RelocKind.mips26, name := "t", size := 0,
           defined := true, addend := 0 }] 0x1000 = some out
      ∧ 0 * 4 + 0x1000 ∈ out := by
  obtain ⟨out, hout, hiff⟩ := two_phase_match_iff [0x0C000064, 0x24210005] Endian.big
    [0x0C, 0, 0, 0x10, 0x24, 0x21, 0, 5]
    [{ offset := 0, kind := RelocKind.mips26, name := "t", size := 0,
       defined := true, addend := 0 }] 0x1000
    [{ word := 0x0C000000, addend := 0x10, mask := 0xFC000000 },
     { word := 0x24210005, addend := 0x24210005, mask := 0xFFFFFFFF }]
    (by decide) (by decide) (by decide) (by decide) rfl
  exact ⟨out, hout, (hiff 0).mpr (by decide)⟩

/-- C6: if the blob contains the exact unmodified .text words of an object
whose stencils build successfully, starting at word index k, then the precise
matcher reports byte offset k*4 (plus the region start) among its hits. -/
theorem self_match (romWords : List Nat) (e : Endian) (bytes : List Nat)
    (relocs : List Reloc) (start : Nat) (ps : List PreciseStencil) (k : Nat)
    (hb : ∀ b ∈ bytes, b < 256)
    (hL : 0 < (words_from_bytes e bytes).length)
    (hrom : romWords.length < USIZE_MOD)
    (hps : make_precise_stencil e bytes relocs = some ps)
    (hk : k + (words_from_bytes e bytes).length ≤ romWords.length)
    (hsub : ∀ j < (words_from_bytes e bytes).length,
      romWords.getD (k + j) 0 = (words_from_bytes e bytes).getD j 0) :
    ∃ out, searchText romWords e bytes relocs start = some out ∧ k * 4 + start ∈ out := by
  have hinv := make_precise_stencil_inv e bytes relocs ps hb hps
  have hlenps : (words_from_bytes e bytes).length = ps.length := hinv.length_eq
  have hlen : (words_from_bytes e bytes).length ≤ romWords.length := by omega
  obtain ⟨out, hout, hiff⟩ :=
    searchText_mem_iff romWords e bytes relocs start ps hb hL hlen hrom hps
  refine ⟨out, hout, (hiff k).mpr ⟨by omega, ?_⟩⟩
  intro j hj
  have hjw : j < (words_from_bytes e bytes).length := by omega
  rw [hsub j hjw]
  have hwq : (words_from_bytes e bytes)[j]? = some ((words_from_bytes e bytes)[j]) :=
    List.getElem?_eq_getElem hjw
  have hpq : ps[j]? = some (ps[j]) := List.getElem?_eq_getElem hj
  have hR : stencilInv ((words_from_bytes e bytes)[j]) (ps[j]) := by
    have := (List.forall₂_iff_get.mp hinv).2 j hjw hj
    simpa using this
  rw [show (words_from_bytes e bytes).getD j 0 = (words_from_bytes e bytes)[j] from by simp [hwq],
    show ps.getD j (initStencil 0) = ps[j] from by simp [hpq]]
  exact hR.2.1.symm

/-- Witness for C6: the object's own two words placed at word index 1 of a
3-word blob are reported at byte offset 4. -/
theorem self_match_witness :
    ∃ out, searchText [0, 0x0C000010, 0x24210005] Endian.big
        [0x0C, 0, 0, 0x10, 0x24, 0x21, 0, 5]
        [{ offset := 0, kind := RelocKind.mips26, name := "t", size := 0,
           defined := true, addend := 0 }] 0 = some out
      ∧ 1 * 4 + 0 ∈ out :=
  self_match [0, 0x0C000010, 0x24210005] Endian.big
    [0x0C, 0, 0, 0x10, 0x24, 0x21, 0, 5]
    [{ offset := 0, kind := RelocKind.mips26, name := "t", size := 0,
       defined := true, addend := 0 }] 0
    [{ word := 0x0C000000, addend := 0x10, mask := 0xFC000000 },
     { word := 0x24210005, addend := 0x24210005, mask := 0xFFFFFFFF }] 1
    (by decide) (by decide) (by decide) rfl (by decide) (by decide)

/-! ## Symbol recovery lemmas (claims C4, C5, C10) -/

theorem parseRelocStep_mips26 (stencil : List PreciseStencil) (romWords : List Nat)
    (f : String) (symbols : List Symbol) (r : Reloc) (hk : r.kind = RelocKind.mips26) :
    parseRelocStep stencil romWords f symbols r =
      match romWords[r.offset / 4]? with
      | none => none
      | some w =>
        if w &&& J_TYPE_MASK ≠ 2 <<< 26 then
          match stencil[r.offset / 4]? with
          | none => none
          | some st =>
            some (symbols ++
              [{ name := r.name,
                 address := u32sub (u32add HIGH_BITS
                   (u32shl (w &&& compl32 J_TYPE_MASK) 2)) st.addend,
                 size := r.size, filename := f, defined := r.defined, complete := true }])
        else some symbols := by
  unfold parseRelocStep
  rw [hk]

theorem parseRelocStep_lo16 (stencil : List PreciseStencil) (romWords : List Nat)
    (f : String) (symbols : List Symbol) (r : Reloc) (hk : r.kind = RelocKind.lo16) :
    parseRelocStep stencil romWords f symbols r =
      match romWords[r.offset / 4]? with
      | none => none
      | some w =>
        match symbols.getLast? with
        | none => some symbols
        | some last =>
          if last.complete then some symbols
          else
            match stencil[r.offset / 4]? with
            | none => none
            | some st =>
              some (symbols.dropLast ++
                [{ last with
                    address := u32sub (u32sub (u32sub
                      (u32add last.address (w &&& compl32 I_TYPE_MASK))
                      (u32shl ((w &&& compl32 I_TYPE_MASK) &&& 0x8000) 1))
                      (intToU32 r.addend)) st.addend,
                    complete := true }]) := by
  unfold parseRelocStep
  rw [hk]

theorem u32_mod_lit : U32_MOD = 4294967296 := by norm_num [U32_MOD]

theorem high_bits_or (y : Nat) (hy : y < 0x80000000) : HIGH_BITS ||| y = HIGH_BITS + y := by
  have hb : y < 2 ^ 31 := by norm_num at hy ⊢; omega
  have h := Nat.mul_add_lt_is_or hb 1
  have h31 : 2 ^ 31 * 1 = HIGH_BITS := by norm_num [HIGH_BITS]
  rw [h31] at h
  exact h.symm

/-- C5 counterexample: at the unconditional jump word 0x08000000 the code
emits no symbol, yet the rough-masked opcode differs from the literal value
0x08 <<< 26 named by the claim — so "emits no symbol exactly when the masked
opcode equals 0x08<<26" is false as stated. -/
theorem j26_opcode_counterexample :
    parse_relocated
      [{ offset := 0, kind := RelocKind.mips26, name := "t", size := 0,
         defined := true, addend := 0 }]
      [{ word := 0x08000000, addend := 0, mask := 0xFC000000 }]
      [0x08000000] "f" = some []
    ∧ (0x08000000 : Nat) &&& ROUGH_MASK ≠ 0x08 <<< 26 := by
  exact ⟨rfl, by decide⟩

/-- C5 (amended): for a J26 relocation at a matched word w the recovery emits
no symbol exactly when w's rough-masked primary opcode is 0x0800_0000
(opcode 0b000010 = 2 <<< 26, the unconditional j); otherwise it emits one
complete symbol with address (HIGH_BITS ||| ((w &&& 0x03FF_FFFF) <<< 2))
minus the in-stencil addend, the bitwise OR agreeing with the + used by the
code because the shifted 28-bit value is below 2^31. -/
theorem j26_symbol_recovery (w : Nat) (st : PreciseStencil) (r : Reloc) (f : String)
    (hk : r.kind = RelocKind.mips26) (ho : r.offset = 0) :
    (w &&& J_TYPE_MASK = 0x08000000 → parse_relocated [r] [st] [w] f = some [])
    ∧ (w &&& J_TYPE_MASK ≠ 0x08000000 →
        parse_relocated [r] [st] [w] f =
          some [{ name := r.name,
                  address := u32sub (HIGH_BITS ||| ((w &&& 0x03FFFFFF) <<< 2)) st.addend,
                  size := r.size, filename := f, defined := r.defined, complete := true }]) := by
  have h226 : (2 : Nat) <<< 26 = 0x08000000 := by decide
  have hsingle : parse_relocated [r] [st] [w] f = parseRelocStep [st] [w] f [] r := by
    show ([r].foldlM (parseRelocStep [st] [w] f) []) = _
    rw [List.foldlM_cons]
    cases h : parseRelocStep [st] [w] f [] r with
    | none => rfl
    | some out => rfl
  have hstep : parseRelocStep [st] [w] f [] r =
      if w &&& J_TYPE_MASK ≠ 2 <<< 26 then
        some ([] ++
          [{ name := r.name,
             address := u32sub (u32add HIGH_BITS
               (u32shl (w &&& compl32 J_TYPE_MASK) 2)) st.addend,
             size := r.size, filename := f, defined := r.defined, complete := true }])
      else some [] := by
    rw [parseRelocStep_mips26 _ _ _ _ _ hk, ho]
    rfl
  constructor
  · intro hj
    rw [hsingle, hstep]
    rw [if_neg (by rw [h226]; exact fun hne => hne hj)]
  · intro hne
    rw [hsingle, hstep]
    rw [if_pos (by rw [h226]; exact hne)]
    have haddr : u32sub (u32add HIGH_BITS (u32shl (w &&& compl32 J_TYPE_MASK) 2)) st.addend
        = u32sub (HIGH_BITS ||| ((w &&& 0x03FFFFFF) <<< 2)) st.addend := by
      have hc : compl32 J_TYPE_MASK = 0x03FFFFFF := by decide
      have hle : w &&& 0x03FFFFFF ≤ 0x03FFFFFF := Nat.and_le_right
      have hx : (w &&& 0x03FFFFFF) <<< 2 < 0x80000000 := by
        rw [Nat.shiftLeft_eq]
        omega
      have hshl : u32shl (w &&& compl32 J_TYPE_MASK) 2 = (w &&& 0x03FFFFFF) <<< 2 := by
        rw [hc]
        unfold u32shl
        rw [u32_mod_lit]
        rw [Nat.shiftLeft_eq] at hx ⊢
        omega
      have hadd : u32add HIGH_BITS ((w &&& 0x03FFFFFF) <<< 2)
          = HIGH_BITS + ((w &&& 0x03FFFFFF) <<< 2) := by
        unfold u32add
        rw [u32_mod_lit]
        rw [Nat.shiftLeft_eq] at hx ⊢
        norm_num [HIGH_BITS] at hx ⊢
        omega
      rw [hshl, hadd, high_bits_or _ hx]
    rw [haddr]
    rfl

/-- Witness for C5 (amended): a jal word (opcode 3) with in-stencil addend
0x10 produces a complete symbol at the claimed OR-computed address. -/
theorem j26_symbol_recovery_witness :
    parse_relocated
      [{ offset := 0, kind := RelocKind.mips26, name := "t", size := 4,
         defined := true, addend := 0 }]
      [{ word := 0x0C000000, addend := 0x10, mask := 0xFC000000 }]
      [0x0C000800] "f" =
      some [{ name := "t",
              address := u32sub (HIGH_BITS ||| (((0x0C000800 : Nat) &&& 0x03FFFFFF) <<< 2)) 0x10,
              size := 4, filename := "f", defined := true, complete := true }] :=
  (j26_symbol_recovery 0x0C000800
    { word := 0x0C000000, addend := 0x10, mask := 0xFC000000 }
    { offset := 0, kind := RelocKind.mips26, name := "t", size := 4,
      defined := true, addend := 0 } "f" rfl rfl).2 (by decide)

/-! ## Claim C4: HI/LO address round trip -/

theorem and_ffff_eq_mod (x : Nat) : x &&& 0xFFFF = x % 65536 := by
  rw [show (0xFFFF : Nat) = 2 ^ 16 - 1 from by norm_num, Nat.and_pow_two_sub_one_eq_mod]

theorem and_bit15 (x : Nat) : x &&& 0x8000 = x / 32768 % 2 * 32768 := by
  have h : x &&& 2 ^ 15 = if x.testBit 15 then 2 ^ 15 else 0 := by
    apply Nat.eq_of_testBit_eq
    intro i
    rw [Nat.testBit_and]
    by_cases hi : i = 15
    · subst hi
      cases ht : x.testBit 15
      · decide
      · decide
    · have hne : Nat.testBit (2 ^ 15) i = false :=
        Nat.testBit_two_pow_of_ne (fun h => hi h.symm)
      rw [hne, Bool.and_false]
      cases ht : x.testBit 15
      · exact (Nat.zero_testBit i).symm
      · exact hne.symm
  rw [show (0x8000 : Nat) = 2 ^ 15 from by norm_num, h, Nat.testBit_to_div_mod]
  have h15 : (2 : Nat) ^ 15 = 32768 := by norm_num
  rw [h15]
  rcases Nat.mod_two_eq_zero_or_one (x / 32768) with h2 | h2
  · rw [h2]
    decide
  · rw [h2]
    decide

theorem hi_lo_addr (A : Nat) (hA : A < U32_MOD) :
    u32sub (u32sub (u32sub
      (u32add (u32sub (u32shl (luiWord A &&& compl32 I_TYPE_MASK) 16) (u32shl 0 16))
        (addiuWord A &&& compl32 I_TYPE_MASK))
      (u32shl ((addiuWord A &&& compl32 I_TYPE_MASK) &&& 0x8000) 1))
      (intToU32 0)) 0 = A := by
  have hcomplI : compl32 I_TYPE_MASK = 0xFFFF := by decide
  have hluiand : luiWord A &&& compl32 I_TYPE_MASK = hiHalf A := by
    rw [hcomplI, luiWord, Nat.and_distrib_right,
      show (0x3C010000 : Nat) &&& 0xFFFF = 0 from by decide,
      hiHalf, Nat.and_assoc, Nat.and_self]
    exact Nat.zero_or _
  have haddand : addiuWord A &&& compl32 I_TYPE_MASK = loHalf A := by
    rw [hcomplI, addiuWord, Nat.and_distrib_right,
      show (0x24210000 : Nat) &&& 0xFFFF = 0 from by decide,
      loHalf, Nat.and_assoc, Nat.and_self]
    exact Nat.zero_or _
  rw [hluiand, haddand]
  have hhi : hiHalf A = (A + 32768) / 65536 % 65536 := by
    rw [hiHalf, Nat.shiftRight_eq_div_pow, and_ffff_eq_mod]
  have hlo : loHalf A = A % 65536 := by
    rw [loHalf, and_ffff_eq_mod]
  rw [hhi, hlo]
  rw [and_bit15 (A % 65536)]
  have hint : intToU32 0 = 0 := by decide
  rw [hint]
  rw [u32_mod_lit] at hA
  have h1 : u32shl ((A + 32768) / 65536 % 65536) 16
      = (A + 32768) / 65536 % 65536 * 65536 := by
    unfold u32shl
    rw [Nat.shiftLeft_eq, u32_mod_lit, show (2 : Nat) ^ 16 = 65536 from by norm_num]
    omega
  have h2 : u32shl 0 16 = 0 := by decide
  have h3 : u32sub ((A + 32768) / 65536 % 65536 * 65536) 0
      = (A + 32768) / 65536 % 65536 * 65536 := by
    unfold u32sub
    rw [u32_mod_lit]
    omega
  have h4 : u32add ((A + 32768) / 65536 % 65536 * 65536) (A % 65536)
      = (A + 32768) / 65536 % 65536 * 65536 + A % 65536 := by
    unfold u32add
    rw [u32_mod_lit]
    omega
  have h5 : u32shl (A % 65536 / 32768 % 2 * 32768) 1 = A % 65536 / 32768 % 2 * 65536 := by
    unfold u32shl
    rw [Nat.shiftLeft_eq, u32_mod_lit, show (2 : Nat) ^ 1 = 2 from by norm_num]
    omega
  rw [h1, h2, h3, h4, h5]
  have hsub_lt : ∀ a b : Nat, u32sub a b < 4294967296 := by
    intro a b
    unfold u32sub
    rw [u32_mod_lit]
    exact Nat.mod_lt _ (by norm_num)
  have hsub0 : ∀ x : Nat, x < 4294967296 → u32sub x 0 = x := by
    intro x hx
    unfold u32sub
    rw [u32_mod_lit]
    omega
  rw [hsub0 _ (hsub_lt _ _), hsub0 _ (hsub_lt _ _)]
  unfold u32sub
  simp only [u32_mod_lit]
  have key : (A + 32768) / 65536 = A / 65536 + A % 65536 / 32768 := by omega
  rw [key]
  have ht : A % 65536 / 32768 % 2 = A % 65536 / 32768 := by omega
  rw [ht]
  have ht2 : A % 65536 / 32768 * 65536 % 4294967296 = A % 65536 / 32768 * 65536 := by omega
  rw [ht2]
  by_cases hq : A / 65536 + A % 65536 / 32768 < 65536
  · rw [Nat.mod_eq_of_lt hq]
    omega
  · have hq2 : A / 65536 + A % 65536 / 32768 = 65536 := by omega
    rw [hq2]
    omega

/-- C4: running symbol recovery on the two-word block lui at,HI(A);
addiu at,at,LO(A) — a HI16 relocation at word 0 and a LO16 relocation at
word 1, both with zero in-stencil addends and zero explicit relocation
addend — emits exactly one symbol, marked complete, whose address is A (the
(lo &&& 0x8000) <<< 1 subtraction cancelling the sign extension of the low
half). -/
theorem hi_lo_roundtrip (A : Nat) (hA : A < U32_MOD) (ps : List PreciseStencil)
    (hps : make_precise_stencil Endian.big c4Bytes c4Relocs = some ps) :
    parse_relocated c4Relocs ps [luiWord A, addiuWord A] "ex" =
      some [{ name := "foo", address := A, size := 0, filename := "ex",
              defined := false, complete := true }] := by
  have hconc : make_precise_stencil Endian.big c4Bytes c4Relocs =
      some [{ word := 0x3C010000, addend := 0, mask := 0xFFFF0000 },
            { word := 0x24210000, addend := 0, mask := 0xFFFF0000 }] := rfl
  rw [hconc] at hps
  have hpsc : ps = [{ word := 0x3C010000, addend := 0, mask := 0xFFFF0000 },
                    { word := 0x24210000, addend := 0, mask := 0xFFFF0000 }] :=
    (Option.some.inj hps).symm
  subst hpsc
  show some [({ name := "foo",
                address := u32sub (u32sub (u32sub
                  (u32add (u32sub (u32shl (luiWord A &&& compl32 I_TYPE_MASK) 16) (u32shl 0 16))
                    (addiuWord A &&& compl32 I_TYPE_MASK))
                  (u32shl ((addiuWord A &&& compl32 I_TYPE_MASK) &&& 0x8000) 1))
                  (intToU32 0)) 0,
                size := 0, filename := "ex", defined := false,
                complete := true } : Symbol)] = _
  rw [hi_lo_addr A hA]

/-- Witness for C4 at the concrete address 0x80101234. -/
theorem hi_lo_roundtrip_witness :
    parse_relocated c4Relocs
      [{ word := 0x3C010000, addend := 0, mask := 0xFFFF0000 },
       { word := 0x24210000, addend := 0, mask := 0xFFFF0000 }]
      [luiWord 0x80101234, addiuWord 0x80101234] "ex" =
      some [{ name := "foo", address := 0x80101234, size := 0, filename := "ex",
              defined := false, complete := true }] :=
  hi_lo_roundtrip 0x80101234 (by norm_num [U32_MOD])
    [{ word := 0x3C010000, addend := 0, mask := 0xFFFF0000 },
     { word := 0x24210000, addend := 0, mask := 0xFFFF0000 }] rfl

/-! ## Claim C10: frame effect of the LO16 recovery step -/

theorem parseRelocStep_lo16_empty (stencil : List PreciseStencil) (romWords : List Nat)
    (f : String) (symbols : List Symbol) (r : Reloc) (hk : r.kind = RelocKind.lo16)
    (w : Nat) (hw : romWords[r.offset / 4]? = some w)
    (hlast : symbols.getLast? = none) :
    parseRelocStep stencil romWords f symbols r = some symbols := by
  rw [parseRelocStep_lo16 _ _ _ _ _ hk, hw, hlast]

theorem parseRelocStep_lo16_some (stencil : List PreciseStencil) (romWords : List Nat)
    (f : String) (symbols : List Symbol) (r : Reloc) (hk : r.kind = RelocKind.lo16)
    (w : Nat) (hw : romWords[r.offset / 4]? = some w)
    (last : Symbol) (hlast : symbols.getLast? = some last) :
    parseRelocStep stencil romWords f symbols r =
      if last.complete then some symbols
      else
        match stencil[r.offset / 4]? with
        | none => none
        | some st =>
          some (symbols.dropLast ++
            [{ last with
                address := u32sub (u32sub (u32sub
                  (u32add last.address (w &&& compl32 I_TYPE_MASK))
                  (u32shl ((w &&& compl32 I_TYPE_MASK) &&& 0x8000) 1))
                  (intToU32 r.addend)) st.addend,
                complete := true }]) := by
  rw [parseRelocStep_lo16 _ _ _ _ _ hk, hw, hlast]

/-- C10: when symbol recovery processes an R_MIPS_LO16 relocation it never
appends a symbol: the list length is unchanged and every symbol other than the
last is unchanged; the last symbol is modified (address updated, complete set)
only when the list is non-empty and its last element is incomplete, and
otherwise the list is returned exactly as it was. -/
theorem lo16_frame_effect (symbols : List Symbol) (stencil : List PreciseStencil)
    (romWords : List Nat) (f : String) (r : Reloc)
    (hk : r.kind = RelocKind.lo16)
    (w : Nat) (hw : romWords[r.offset / 4]? = some w)
    (st : PreciseStencil) (hst : stencil[r.offset / 4]? = some st) :
    ∃ out, parseRelocStep stencil romWords f symbols r = some out
      ∧ out.length = symbols.length
      ∧ out.dropLast = symbols.dropLast
      ∧ (symbols = [] → out = symbols)
      ∧ ∀ last, symbols.getLast? = some last →
          (last.complete = true → out = symbols)
          ∧ (last.complete = false →
              out = symbols.dropLast ++
                [{ last with
                    address := u32sub (u32sub (u32sub
                      (u32add last.address (w &&& compl32 I_TYPE_MASK))
                      (u32shl ((w &&& compl32 I_TYPE_MASK) &&& 0x8000) 1))
                      (intToU32 r.addend)) st.addend,
                    complete := true }]) := by
  cases hlast : symbols.getLast? with
  | none =>
    refine ⟨symbols, parseRelocStep_lo16_empty stencil romWords f symbols r hk w hw hlast,
      rfl, rfl, fun _ => rfl, ?_⟩
    intro last hl2
    cases hl2
  | some last0 =>
    have hne : symbols ≠ [] := by
      intro h
      subst h
      simp at hlast
    have hstep := parseRelocStep_lo16_some stencil romWords f symbols r hk w hw last0 hlast
    cases hc : last0.complete with
    | true =>
      rw [if_pos hc] at hstep
      refine ⟨symbols, hstep, rfl, rfl, fun _ => rfl, ?_⟩
      intro last hl2
      cases Option.some.inj hl2
      refine ⟨fun _ => rfl, fun hfc => ?_⟩
      rw [hc] at hfc
      cases hfc
    | false =>
      rw [if_neg (by rw [hc]; exact Bool.false_ne_true)] at hstep
      rw [hst] at hstep
      have hpos : 0 < symbols.length := List.length_pos.mpr hne
      refine ⟨symbols.dropLast ++
          [{ last0 with
              address := u32sub (u32sub (u32sub
                (u32add last0.address (w &&& compl32 I_TYPE_MASK))
                (u32shl ((w &&& compl32 I_TYPE_MASK) &&& 0x8000) 1))
                (intToU32 r.addend)) st.addend,
              complete := true }],
        hstep.trans rfl, ?_, List.dropLast_concat, fun h => absurd h hne, ?_⟩
      · rw [List.length_append, List.length_dropLast]
        simp
        omega
      · intro last hl2
        cases Option.some.inj hl2
        refine ⟨fun htc => ?_, fun _ => rfl⟩
        rw [hc] at htc
        cases htc

/-- Witness for C10: a pending incomplete symbol is completed in place; length
and prefix are preserved. -/
theorem lo16_frame_effect_witness :
    ∃ out, parseRelocStep
        [{ word := 0x24210000, addend := 0, mask := 0xFFFF0000 }] [0x24210008] "f"
        [{ name := "a", address := 0x80000000, size := 0, filename := "f",
           defined := true, complete := false }]
        { offset := 0, kind := RelocKind.lo16, name := "a", size := 0,
          defined := true, addend := 0 } = some out
      ∧ out.length = 1
      ∧ out.dropLast = []
      ∧ (([{ name := "a", address := 0x80000000, size := 0, filename := "f",
             defined := true, complete := false }] : List Symbol) = [] →
          out = [{ name := "a", address := 0x80000000, size := 0, filename := "f",
                   defined := true, complete := false }]) := by
  obtain ⟨out, hout, hlen, hdrop, hnil, _⟩ := lo16_frame_effect
    [{ name := "a", address := 0x80000000, size := 0, filename := "f",
       defined := true, complete := false }]
    [{ word := 0x24210000, addend := 0, mask := 0xFFFF0000 }] [0x24210008] "f"
    { offset := 0, kind := RelocKind.lo16, name := "a", size := 0,
      defined := true, addend := 0 } rfl 0x24210008 rfl
    { word := 0x24210000, addend := 0, mask := 0xFFFF0000 } rfl
  exact ⟨out, hout, hlen, hdrop, hnil⟩

/-! ## Claim C7: sort and dedup of the emitted symbol list -/

theorem pairwise_orderedInsert {α : Type} {S : α → α → Prop} (r : α → α → Prop)
    [DecidableRel r] (a : α) :
    ∀ (m : List α), m.Pairwise S → (∀ z ∈ m, S a z) → (∀ y ∈ m, ¬ r a y → S y a) →
      (List.orderedInsert r a m).Pairwise S := by
  intro m
  induction m with
  | nil =>
    intro _ _ _
    simp [List.orderedInsert]
  | cons b m' ih =>
    intro hm ha hy
    by_cases hr : r a b
    · rw [List.orderedInsert, if_pos hr]
      rw [List.pairwise_cons]
      exact ⟨ha, hm⟩
    · rw [List.orderedInsert, if_neg hr]
      rw [List.pairwise_cons]
      rw [List.pairwise_cons] at hm
      constructor
      · intro z hz
        rcases (List.mem_orderedInsert r).mp hz with rfl | hz'
        · exact hy b (List.mem_cons_self _ _) hr
        · exact hm.1 z hz'
      · exact ih hm.2 (fun z hz => ha z (List.mem_cons_of_mem _ hz))
          (fun y hyy hry => hy y (List.mem_cons_of_mem _ hyy) hry)

theorem pairwise_insertionSort {α : Type} {S : α → α → Prop} (r : α → α → Prop)
    [DecidableRel r] (hcomp : ∀ a b : α, ¬ r a b → S b a) :
    ∀ l : List α, l.Pairwise S → (List.insertionSort r l).Pairwise S := by
  intro l
  induction l with
  | nil => intro _; simp [List.insertionSort]
  | cons x l ih =>
    intro hl
    rw [List.pairwise_cons] at hl
    show (List.orderedInsert r x (List.insertionSort r l)).Pairwise S
    apply pairwise_orderedInsert r x _ (ih hl.2)
    · intro z hz
      exact hl.1 z ((List.perm_insertionSort r l).mem_iff.mp hz)
    · intro y _ hry
      exact hcomp x y hry

theorem dedupKeyGo_sublist {α κ : Type} [DecidableEq κ] (key : α → κ) :
    ∀ (l : List α) (prev : α), List.Sublist (dedupKeyGo key prev l) l := by
  intro l
  induction l with
  | nil => intro _; exact List.Sublist.refl _
  | cons b rest ih =>
    intro prev
    rw [dedupKeyGo]
    by_cases hk : key prev = key b
    · rw [if_pos hk]
      exact (ih prev).cons b
    · rw [if_neg hk]
      exact (ih b).cons₂ b

theorem dedupByKey_sublist {α κ : Type} [DecidableEq κ] (key : α → κ) (l : List α) :
    List.Sublist (dedupByKey key l) l := by
  cases l with
  | nil => exact List.Sublist.refl _
  | cons a rest => exact (dedupKeyGo_sublist key rest a).cons₂ a

theorem dedupKeyGo_chain {α κ : Type} [DecidableEq κ] (key : α → κ) :
    ∀ (l : List α) (prev : α),
      List.Chain' (fun a b => ¬ key a = key b) (prev :: dedupKeyGo key prev l) := by
  intro l
  induction l with
  | nil => intro _; exact List.chain'_singleton _
  | cons b rest ih =>
    intro prev
    rw [dedupKeyGo]
    by_cases hk : key prev = key b
    · rw [if_pos hk]
      exact ih prev
    · rw [if_neg hk]
      exact List.chain'_cons.mpr ⟨hk, ih b⟩

theorem dedupByKey_chain {α κ : Type} [DecidableEq κ] (key : α → κ) (l : List α) :
    List.Chain' (fun a b => ¬ key a = key b) (dedupByKey key l) := by
  cases l with
  | nil => simp [dedupByKey]
  | cons a rest => exact dedupKeyGo_chain key rest a

/-- C7 counterexample: the final dedup removes only consecutive duplicates,
so with an entry of a different name between two same-sized-ordered entries of
symbol A at the same address, the emitted list retains two entries with the
same (name, address) pair (positions 0 and 2). -/
theorem emit_symbols_dup_counterexample :
    (emitSymbols
      [{ name := "A", address := 5, size := 10, filename := "x", defined := true, complete := true },
       { name := "B", address := 5, size := 7, filename := "y", defined := true, complete := true },
       { name := "A", address := 5, size := 3, filename := "z", defined := true,
         complete := true }])[0]?.map (fun s => (s.name, s.address)) = some ("A", 5)
    ∧ (emitSymbols
      [{ name := "A", address := 5, size := 10, filename := "x", defined := true, complete := true },
       { name := "B", address := 5, size := 7, filename := "y", defined := true, complete := true },
       { name := "A", address := 5, size := 3, filename := "z", defined := true,
         complete := true }])[2]?.map (fun s => (s.name, s.address)) = some ("A", 5) := by
  exact ⟨rfl, rfl⟩

/-- C7 (amended): the emitted symbol list is sorted by (address ascending,
size descending), and no two CONSECUTIVE entries share the same
(name, address) pair; duplicates separated by another entry can survive the
consecutive-only dedup. -/
theorem emit_symbols_sorted_dedup (l : List Symbol) :
    (emitSymbols l).Pairwise symLex
    ∧ (emitSymbols l).Chain' (fun a b => ¬ (a.name = b.name ∧ a.address = b.address)) := by
  constructor
  · have hsorted1 : (List.insertionSort symSizeGe l).Pairwise symSizeGe :=
      List.sorted_insertionSort symSizeGe l
    have hS : (List.insertionSort symSizeGe l).Pairwise
        (fun a b => a.address = b.address → b.size ≤ a.size) := by
      apply List.Pairwise.imp _ hsorted1
      intro a b h _
      exact h
    have hS2 : (List.insertionSort symAddrLe (List.insertionSort symSizeGe l)).Pairwise
        (fun a b => a.address = b.address → b.size ≤ a.size) := by
      apply pairwise_insertionSort symAddrLe _ _ hS
      intro a b hnle heq
      exact absurd (Nat.le_of_eq heq.symm) hnle
    have hsorted2 : (List.insertionSort symAddrLe (List.insertionSort symSizeGe l)).Pairwise
        symAddrLe :=
      List.sorted_insertionSort symAddrLe _
    have hcomb := (hsorted2.and hS2).imp
      (fun {a b} h => show symLex a b from by
        rcases Nat.lt_or_ge a.address b.address with hlt | hge
        · exact Or.inl hlt
        · have heq : a.address = b.address := Nat.le_antisymm h.1 hge
          exact Or.inr ⟨heq, h.2 heq⟩)
    exact List.Pairwise.sublist (dedupByKey_sublist _ _) hcomb
  · have hchain := dedupByKey_chain (fun s : Symbol => (s.name, s.address))
      (List.insertionSort symAddrLe (List.insertionSort symSizeGe l))
    apply List.Chain'.imp _ hchain
    intro a b hne hand
    exact hne (by rw [hand.1, hand.2])

/-! ## Claim C3: an unsupported relocation kind is fatal, not skipped -/

theorem applyRelocs_none_of_unsupported :
    ∀ (relocs : List Reloc) (s : List PreciseStencil),
      (∀ r ∈ relocs, r.offset / 4 < s.length) →
      (∃ r ∈ relocs, r.kind = RelocKind.other) →
      relocs.foldlM applyReloc s = none := by
  intro relocs
  induction relocs with
  | nil =>
    intro s _ hex
    simp at hex
  | cons r0 rest ih =>
    intro s hbnd hex
    rw [List.foldlM_cons]
    by_cases hk0 : r0.kind = RelocKind.other
    · rw [applyReloc_other s r0 hk0]
      rfl
    · have hidx : r0.offset / 4 < s.length := hbnd r0 (List.mem_cons_self _ _)
      have hget : s[r0.offset / 4]? = some (s[r0.offset / 4]) := List.getElem?_eq_getElem hidx
      have happly : applyReloc s r0 =
          some (s.set (r0.offset / 4) (applyKindUpd r0.kind (s[r0.offset / 4]))) := by
        rw [applyReloc_eq s r0 hk0, hget]
      rw [happly]
      have hex2 : ∃ r ∈ rest, r.kind = RelocKind.other := by
        rcases hex with ⟨r, hr, hrk⟩
        rcases List.mem_cons.mp hr with rfl | hr2
        · exact absurd hrk hk0
        · exact ⟨r, hr2, hrk⟩
      exact ih _ (fun r hr => by
        rw [List.length_set]
        exact hbnd r (List.mem_cons_of_mem _ hr)) hex2

theorem make_precise_stencil_none (e : Endian) (bytes : List Nat) (relocs : List Reloc)
    (hbnd : ∀ r ∈ relocs, r.offset / 4 < bytes.length / 4)
    (hex : ∃ r ∈ relocs, r.kind = RelocKind.other) :
    make_precise_stencil e bytes relocs = none := by
  rw [make_precise_stencil_eq]
  apply applyRelocs_none_of_unsupported relocs _ _ hex
  intro r hr
  rw [List.length_map, words_from_bytes_length]
  exact hbnd r hr

theorem processObject_none (flatAmb : String → Bool) (e : Endian)
    (base start : Nat) (romWords : List Nat) (st : RunState) (obj : ObjData)
    (bytes : List Nat)
    (htext : obj.text = some bytes)
    (hsz : bytes.length ≠ 0)
    (hnz : (words_from_bytes e bytes).all (fun x => x == 0) = false)
    (rr : List Nat)
    (hnaive : naive_wordsearch romWords (make_rough_stencil e bytes) = some rr)
    (hrr : rr ≠ [])
    (hps : make_precise_stencil e bytes obj.relocs = none) :
    processObject flatAmb e base start romWords st obj = none := by
  simp only [processObject, htext]
  rw [if_neg hsz]
  rw [hnz]
  rw [if_neg Bool.false_ne_true]
  rw [hnaive]
  simp only []
  rw [if_neg hrr]
  rw [hps]

/-- C3 counterexample: an object whose .text carries a relocation of an
unsupported kind panics the whole run once its rough scan hits, so a later
object that would have matched is never processed; processing the later
object alone succeeds and reports it as found. -/
theorem unsupported_reloc_counterexample :
    processObjects (fun _ => false) Endian.big 0x80000000 0 [1] initRunState
      [{ stem := "bad", text := some [0, 0, 0, 1],
         relocs := [{ offset := 0, kind := RelocKind.other, name := "x", size := 0,
                      defined := false, addend := 0 }],
         symtab := [] },
       { stem := "good", text := some [0, 0, 0, 1], relocs := [], symtab := [] }] = none
    ∧ processObjects (fun _ => false) Endian.big 0x80000000 0 [1] initRunState
        [{ stem := "good", text := some [0, 0, 0, 1], relocs := [], symtab := [] }] =
      some { found := [("good", 0, 4)], ambiguous := [], notFound := [], symbols := [] } := by
  exact ⟨rfl, rfl⟩

/-- C3 (amended): a relocation kind outside J26/HI16/LO16 is not confined to
its object: whenever the object passes the pre-checks (present, non-empty,
not all-zero .text) and its rough scan produces at least one hit, the stencil
build hits unimplemented!() and the whole run aborts, processing no further
objects. -/
theorem unsupported_reloc_fatal (flatAmb : String → Bool) (e : Endian)
    (base start : Nat) (romWords : List Nat) (st : RunState) (obj : ObjData)
    (rest : List ObjData) (bytes : List Nat)
    (htext : obj.text = some bytes)
    (hsz : bytes.length ≠ 0)
    (hnz : (words_from_bytes e bytes).all (fun x => x == 0) = false)
    (rr : List Nat)
    (hnaive : naive_wordsearch romWords (make_rough_stencil e bytes) = some rr)
    (hrr : rr ≠ [])
    (hbnd : ∀ r ∈ obj.relocs, r.offset / 4 < bytes.length / 4)
    (hex : ∃ r ∈ obj.relocs, r.kind = RelocKind.other) :
    processObjects flatAmb e base start romWords st (obj :: rest) = none := by
  have hps := make_precise_stencil_none e bytes obj.relocs hbnd hex
  have hobj := processObject_none flatAmb e base start romWords st obj bytes
    htext hsz hnz rr hnaive hrr hps
  show ((obj :: rest).foldlM (processObject flatAmb e base start romWords) st) = none
  rw [List.foldlM_cons, hobj]
  rfl

/-- Witness for C3 (amended) on the concrete bad object. -/
theorem unsupported_reloc_fatal_witness :
    processObjects (fun _ => false) Endian.big 0x80000000 0 [1] initRunState
      [{ stem := "bad", text := some [0, 0, 0, 1],
         relocs := [{ offset := 0, kind := RelocKind.other, name := "x", size := 0,
                      defined := false, addend := 0 }],
         symtab := [] }] = none :=
  unsupported_reloc_fatal (fun _ => false) Endian.big 0x80000000 0 [1] initRunState
    { stem := "bad", text := some [0, 0, 0, 1],
      relocs := [{ offset := 0, kind := RelocKind.other, name := "x", size := 0,
                   defined := false, addend := 0 }],
      symtab := [] }
    [] [0, 0, 0, 1] rfl (by decide) (by decide) [0] rfl (by decide)
    (by decide) (by decide)

end Flib
